import Mathlib

/-!
Verification of the change-proposal engine of the `pompora` editor
(`src/AppShell.tsx`).  Every definition below is a shallow embedding of the
corresponding TypeScript function, translated statement by statement; text is
modelled as `String` backed by `List Char` so that all functions are
executable by kernel reduction.  JavaScript `undefined`-producing array reads
are modelled explicitly where the source can perform them.
-/

set_option maxRecDepth 4096

namespace Pompora

/-! ## Character-list text primitives

The TypeScript source manipulates JS strings with `split`, `trim`,
`startsWith`, `includes`, `slice` and regular expressions.  We implement the
exact operations used, over `List Char`. -/

abbrev Chars := List Char

/-- JS `String.prototype.trim` whitespace test, restricted to the ASCII
whitespace characters that can appear in the inputs of this development. -/
def isWsJS (c : Char) : Bool :=
  c == ' ' || c == '\t' || c == '\n' || c == '\r' || c == '\x0b' || c == '\x0c'

def trimL (l : Chars) : Chars :=
  ((l.dropWhile isWsJS).reverse.dropWhile isWsJS).reverse

/-- JS `s.trim()`. -/
def trimS (s : String) : String := String.mk (trimL s.data)

/-- `s.replace(/\r\n/g, "\n")`: collapse CRLF pairs to LF. -/
def replCRLF : Chars → Chars
  | '\r' :: '\n' :: rest => '\n' :: replCRLF rest
  | c :: rest => c :: replCRLF rest
  | [] => []

/-- Split a character list at every occurrence of `sep` (JS
`String.prototype.split` with a single-character separator: always returns at
least one, possibly empty, piece). -/
def splitCh (sep : Char) : Chars → List Chars
  | [] => [[]]
  | c :: rest =>
    if c = sep then [] :: splitCh sep rest
    else
      match splitCh sep rest with
      | [] => [[c]]
      | l :: ls => (c :: l) :: ls

/-- `splitLines` from the source: CRLF-normalize, then split on `"\n"`. -/
def splitLines (s : String) : List String :=
  ((splitCh '\n') (replCRLF s.data)).map String.mk

/-- `arr.join("\n")`. -/
def joinNL : List String → String
  | [] => ""
  | [s] => s
  | s :: rest => s ++ "\n" ++ joinNL rest

/-- JS `l.startsWith(pre)` on character lists. -/
def startsWithL : Chars → Chars → Bool
  | [], _ => true
  | _ :: _, [] => false
  | p :: ps, c :: cs => p == c && startsWithL ps cs

def startsWithS (s pre : String) : Bool := startsWithL pre.data s.data

/-- JS `hay.includes(needle)` on character lists. -/
def occursSub (needle : Chars) : Chars → Bool
  | [] => startsWithL needle []
  | c :: rest => startsWithL needle (c :: rest) || occursSub needle rest

def strIncludes (hay needle : String) : Bool := occursSub needle.data hay.data

/-- Index of the first occurrence of `needle` (JS `indexOf`), if any. -/
def findSubIdx (needle : Chars) : Chars → Option Nat
  | [] => if startsWithL needle [] then some 0 else none
  | c :: rest =>
    if startsWithL needle (c :: rest) then some 0
    else (findSubIdx needle rest).map (· + 1)

/-- ASCII lower-casing, as JS `toLowerCase` behaves on the ASCII op names
appearing in this code base. -/
def lowerC (c : Char) : Char :=
  if 'A' ≤ c && c ≤ 'Z' then Char.ofNat (c.toNat + 32) else c

def toLowerS (s : String) : String := String.mk (s.data.map lowerC)

def isDigitC (c : Char) : Bool := '0' ≤ c && c ≤ '9'

/-- Decimal value of a digit run (JS `Number` on a `\d+` match). -/
def digitsToNat (l : Chars) : Nat :=
  l.foldl (fun acc c => acc * 10 + (c.toNat - '0'.toNat)) 0

/-! ## Unified diff parser (`parseUnifiedDiff`) -/

inductive LineKind where
  | ctx | add | del
  deriving DecidableEq, Repr

structure UnifiedDiffHunkLine where
  kind : LineKind
  text : String
  deriving DecidableEq, Repr

structure UnifiedDiffHunk where
  oldStart : Nat
  oldCount : Nat
  newStart : Nat
  newCount : Nat
  lines : List UnifiedDiffHunkLine
  deriving DecidableEq, Repr

/-- Consume one or more JS-`\s` characters (the `\s+` of the hunk header
regex).  Returns the rest on success. -/
def takeWs1 : Chars → Option Chars
  | c :: rest => if isWsJS c then some ((c :: rest).dropWhile isWsJS) else none
  | [] => none

/-- Consume one or more ASCII digits, returning their value and the rest. -/
def takeDigits1 (l : Chars) : Option (Nat × Chars) :=
  match l.takeWhile isDigitC, l.dropWhile isDigitC with
  | [], _ => none
  | ds, rest => some (digitsToNat ds, rest)

/-- Consume `\d+(?:,\d+)?` and apply the source's `parseRange` (count defaults
to 1 when the `,count` part is absent). -/
def takeRange (l : Chars) : Option (Nat × Nat × Chars) :=
  match takeDigits1 l with
  | none => none
  | some (start, rest) =>
    match rest with
    | ',' :: rest2 =>
      match takeDigits1 rest2 with
      | some (count, rest3) => some (start, count, rest3)
      | none => some (start, 1, rest)
    | _ => some (start, 1, rest)

/-- Match the hunk header regex
`/^@@\s+-(\d+(?:,\d+)?)\s+\+(\d+(?:,\d+)?)\s+@@/`, returning
`(oldStart, oldCount, newStart, newCount)`.

When the optional `,count` of a range is not followed by digits the regex
backtracks to the bare `\d+` alternative and then requires `\s+`; `takeRange`
mirrors that by keeping the comma in the rest, where `takeWs1` then fails. -/
def parseHunkHeader (l : Chars) : Option (Nat × Nat × Nat × Nat) :=
  match l with
  | '@' :: '@' :: rest =>
    match takeWs1 rest with
    | none => none
    | some r1 =>
      match r1 with
      | '-' :: r2 =>
        match takeRange r2 with
        | none => none
        | some (os, oc, r3) =>
          match takeWs1 r3 with
          | none => none
          | some r4 =>
            match r4 with
            | '+' :: r5 =>
              match takeRange r5 with
              | none => none
              | some (ns, nc, r6) =>
                match takeWs1 r6 with
                | none => none
                | some r7 =>
                  match r7 with
                  | '@' :: '@' :: _ => some (os, oc, ns, nc)
                  | _ => none
            | _ => none
      | _ => none
  | _ => none

/-- Classify one hunk-body line by its leading character (the body of the
inner `while` of `parseUnifiedDiff`): `' '` context, `'+'` add, `'-'` delete,
the no-newline marker is dropped, anything else is kept as context verbatim. -/
def classifyHunkLine (l : String) : Option UnifiedDiffHunkLine :=
  match l.data with
  | ' ' :: t => some ⟨LineKind.ctx, String.mk t⟩
  | '+' :: t => some ⟨LineKind.add, String.mk t⟩
  | '-' :: t => some ⟨LineKind.del, String.mk t⟩
  | _ =>
    if l = "\\ No newline at end of file" then none
    else some ⟨LineKind.ctx, l⟩

/-- Collect hunk-body lines until the next line starting with `"@@ "`,
skipping `---`/`+++`/`diff ` header noise.  Returns the body and the
remaining lines (starting with the next header line, if any). -/
def collectBody : List String → List UnifiedDiffHunkLine × List String
  | [] => ([], [])
  | l :: rest =>
    if startsWithS l "@@ " then ([], l :: rest)
    else if startsWithS l "--- " || startsWithS l "+++ " || startsWithS l "diff " then
      collectBody rest
    else
      let (b, r) := collectBody rest
      match classifyHunkLine l with
      | some hl => (hl :: b, r)
      | none => (b, r)

/-- The outer scan of `parseUnifiedDiff`; `fuel` bounds the number of
remaining lines (each recursive call consumes at least the header line). -/
def puLoop : Nat → List String → List UnifiedDiffHunk
  | 0, _ => []
  | _, [] => []
  | fuel + 1, l :: rest =>
    match parseHunkHeader l.data with
    | none => puLoop fuel rest
    | some (os, oc, ns, nc) =>
      let (body, rem) := collectBody rest
      { oldStart := os, oldCount := oc, newStart := ns, newCount := nc,
        lines := body } :: puLoop fuel rem

def parseUnifiedDiff (patchText : String) : List UnifiedDiffHunk :=
  let lines := splitLines patchText
  puLoop lines.length lines

/-! ## Fuzzy anchor search (`findSequenceStart`) -/

/-- `|i - p|` on naturals. -/
def natDist (i p : Nat) : Nat := max (i - p) (p - i)

/-- Whether `seq` occurs as a contiguous run of `hay` starting at `i`
(the inner `for j` loop of `findSequenceStart`; a JS out-of-bounds read
yields `undefined` and hence a mismatch, matched here by `take` producing a
short list). -/
def runAt (hay seq : List String) (i : Nat) : Bool :=
  (hay.drop i).take seq.length == seq

/-- The scanning loop of `findSequenceStart`: try `cnt` start indices
beginning at `i`, keeping the first run whose distance to `preferred` is
strictly smallest, breaking early on distance `0`. -/
def fssScan (hay seq : List String) (preferred : Nat) :
    Nat → Nat → Option (Nat × Nat) → Option Nat
  | 0, _, best => best.map (·.1)
  | cnt + 1, i, best =>
    if runAt hay seq i then
      match best with
      | some (bi, bd) =>
        if natDist i preferred < bd then
          if natDist i preferred = 0 then some i
          else fssScan hay seq preferred cnt (i + 1) (some (i, natDist i preferred))
        else fssScan hay seq preferred cnt (i + 1) (some (bi, bd))
      | none =>
        if natDist i preferred = 0 then some i
        else fssScan hay seq preferred cnt (i + 1) (some (i, natDist i preferred))
    else fssScan hay seq preferred cnt (i + 1) best

/-- `findSequenceStart(hay, seq, minIndex, preferredIndex)` from the source. -/
def findSequenceStart (hay seq : List String) (minIndex preferredIndex : Nat) :
    Option Nat :=
  if seq.length = 0 then some (max minIndex (min preferredIndex hay.length))
  else if hay.length < seq.length then none
  else
    let maxStart := hay.length - seq.length
    if maxStart < minIndex then none
    else fssScan hay seq preferredIndex (maxStart + 1 - minIndex) minIndex none

/-! ## Patch applier (`applyUnifiedDiffToText`) -/

/-- The context/delete lines a hunk expects to find in the base text. -/
def oldSeqOf (h : UnifiedDiffHunk) : List String :=
  (h.lines.filter (fun x => x.kind = LineKind.ctx ∨ x.kind = LineKind.del)).map
    (·.text)

/-- Walk one hunk's lines against the base-line array `a` from cursor `ai`,
accumulating output lines (the inner `for (const hl of h.lines)` loop). -/
def walkHunkLines (a : List String) :
    List UnifiedDiffHunkLine → List String → Nat → Except String (List String × Nat)
  | [], out, ai => .ok (out, ai)
  | hl :: rest, out, ai =>
    match hl.kind with
    | LineKind.ctx =>
      match a.get? ai with
      | some t =>
        if t = hl.text then walkHunkLines a rest (out ++ [t]) (ai + 1)
        else .error ("Context mismatch at line " ++ toString (ai + 1) ++
          ": expected '" ++ hl.text ++ "', got '" ++ t ++ "'")
      | none => .error ("Context mismatch at line " ++ toString (ai + 1) ++
          ": expected '" ++ hl.text ++ "', got '<eof>'")
    | LineKind.del =>
      match a.get? ai with
      | some t =>
        if t = hl.text then walkHunkLines a rest out (ai + 1)
        else .error ("Delete mismatch at line " ++ toString (ai + 1) ++
          ": expected '" ++ hl.text ++ "', got '" ++ t ++ "'")
      | none => .error ("Delete mismatch at line " ++ toString (ai + 1) ++
          ": expected '" ++ hl.text ++ "', got '<eof>'")
    | LineKind.add => walkHunkLines a rest (out ++ [hl.text]) ai

/-- Process the hunks in order with the running `(out, ai)` state
(the outer `for (const h of hunks)` loop of `applyUnifiedDiffToText`). -/
def applyHunks (a : List String) :
    List UnifiedDiffHunk → List String → Nat → Except String (List String)
  | [], out, ai => .ok (out ++ a.drop ai)
  | h :: rest, out, ai =>
    let preferredIdx := h.oldStart - 1
    let oldSeq := oldSeqOf h
    match findSequenceStart a oldSeq ai preferredIdx with
    | none =>
      .error ("Failed to locate hunk context in file (starting near line " ++
        toString (preferredIdx + 1) ++ ").")
    | some foundIdx =>
      if foundIdx < ai then .error "Patch hunk overlaps previous hunk"
      else
        let out2 := out ++ (a.drop ai).take (foundIdx - ai)
        match walkHunkLines a h.lines out2 foundIdx with
        | .error e => .error e
        | .ok (out3, ai3) => applyHunks a rest out3 ai3

/-- `applyUnifiedDiffToText(before, patchText)` from the source. -/
def applyUnifiedDiffToText (before patchText : String) : Except String String :=
  let hunks := parseUnifiedDiff patchText
  if hunks.isEmpty then .error "Patch has no hunks"
  else
    let a := splitLines before
    match applyHunks a hunks [] 0 with
    | .error e => .error e
    | .ok out => .ok (joinNL out)

/-! ## Line differ (`diffLines`, Myers with per-`d` snapshots)

The source's backtracking pass reads `trace[d2]`, the snapshot pushed at the
END of round `d2` (for the final round: the partial map of the round in which
the end point was reached).  We embed that behaviour exactly, including the
JS `?? 0` defaults for diagonals absent from a map and the JS semantics of
out-of-range array reads (`undefined`). -/

structure LineOp where
  type : LineKind
  line : String
  deriving DecidableEq, Repr

/-- The `Map<number, number>` used for the furthest-reaching-point table. -/
abbrev VMap := List (Int × Nat)

def vget (m : VMap) (k : Int) : Option Nat :=
  (m.find? (fun e => e.1 == k)).map (·.2)

def vset (m : VMap) (k : Int) (x : Nat) : VMap := (k, x) :: m

/-- JS read `l[i]` where `i` may be out of range: the resulting `undefined`
is only ever stored in a `LineOp.line` field, never compared, so we model it
by a marker string. -/
def jsIdxS (l : List String) (i : Int) : String :=
  if i < 0 then "undefined" else (l.get? i.toNat).getD "undefined"

/-- The diagonal snake: `while (x < n && y < m && a[x] === b[y]) x++, y++`.
`y` can be negative (via the `?? 0` defaults), in which case `b[y]` is
`undefined` and never equal to the in-bounds string `a[x]`. -/
def snake (a b : List String) : Nat → Nat → Int → Nat × Int
  | 0, x, y => (x, y)
  | fuel + 1, x, y =>
    if x < a.length ∧ 0 ≤ y ∧ y < (b.length : Int) ∧
        a.get? x = b.get? y.toNat ∧ (a.get? x).isSome then
      snake a b fuel (x + 1) (y + 1)
    else (x, y)

/-- One round's inner `for k` loop.  Returns `Sum.inl v2` when the end point
was reached at some diagonal of this round (with `v2` the partial map built
so far, including the current `k`), else `Sum.inr v2` with the full round
map. -/
def kLoop (a b : List String) (v : VMap) (d : Nat) :
    Nat → Int → VMap → Sum VMap VMap
  | 0, _, v2 => Sum.inr v2
  | cnt + 1, k, v2 =>
    let x0 : Nat :=
      if k == -(d : Int) ||
          (k != (d : Int) && (vget v (k - 1)).getD 0 < (vget v (k + 1)).getD 0) then
        (vget v (k + 1)).getD 0
      else (vget v (k - 1)).getD 0 + 1
    let y0 : Int := (x0 : Int) - k
    let (x, y) := snake a b (a.length - x0) x0 y0
    let v2' := vset v2 k x
    if a.length ≤ x ∧ (b.length : Int) ≤ y then Sum.inl v2'
    else kLoop a b v d cnt (k + 2) v2'

/-- The outer `for d` loop: run rounds `d = 0, 1, …` until the end point is
reached, collecting the per-round snapshots (`trace`). -/
def dLoop (a b : List String) : Nat → Nat → VMap → List VMap → Option (List VMap)
  | 0, _, _, _ => none
  | fuel + 1, d, v, trace =>
    match kLoop a b v d (d + 1) (-(d : Int)) [] with
    | Sum.inl v2 => some (trace ++ [v2])
    | Sum.inr v2 => dLoop a b fuel (d + 1) v2 (trace ++ [v2])

/-- The inner `while (x2 > prevX && y2 > prevY)` of the backtracking pass:
emit context ops walking the diagonal back. -/
def ctxWalk (a : List String) (prevX : Nat) (prevY : Int) :
    Nat → Int → Int → List LineOp → Int × Int × List LineOp
  | 0, x2, y2, ops => (x2, y2, ops)
  | fuel + 1, x2, y2, ops =>
    if (prevX : Int) < x2 ∧ prevY < y2 then
      ctxWalk a prevX prevY fuel (x2 - 1) (y2 - 1)
        (ops ++ [⟨LineKind.ctx, jsIdxS a (x2 - 1)⟩])
    else (x2, y2, ops)

/-- The backtracking `for (let d2 = trace.length - 1; d2 >= 0; d2--)` loop,
iterating over the reversed trace; `rest.length` is the current `d2`. -/
def backLoop (a b : List String) :
    List VMap → Int → Int → List LineOp → List LineOp
  | [], _, _, ops => ops
  | vv :: rest, x2, y2, ops =>
    let d2 : Nat := rest.length
    let k2 : Int := x2 - y2
    let prevK : Int :=
      if k2 == -(d2 : Int) ||
          (k2 != (d2 : Int) &&
            (vget vv (k2 - 1)).getD 0 < (vget vv (k2 + 1)).getD 0) then
        k2 + 1
      else k2 - 1
    let prevX : Nat := (vget vv prevK).getD 0
    let prevY : Int := (prevX : Int) - prevK
    let fuel : Nat := (x2 - (prevX : Int)).toNat
    let (x2', y2', ops') := ctxWalk a prevX prevY fuel x2 y2 ops
    if d2 = 0 then ops'
    else if x2' = (prevX : Int) then
      backLoop a b rest x2' (y2' - 1) (ops' ++ [⟨LineKind.add, jsIdxS b (y2' - 1)⟩])
    else
      backLoop a b rest (x2' - 1) y2' (ops' ++ [⟨LineKind.del, jsIdxS a (x2' - 1)⟩])

/-- `diffLines(before, after)` from the source. -/
def diffLines (before after : String) : List LineOp :=
  let a := splitLines before
  let b := splitLines after
  match dLoop a b (a.length + b.length + 1) 0 [(1, 0)] [] with
  | none => []
  | some trace =>
    (backLoop a b trace.reverse (a.length : Int) (b.length : Int) []).reverse

/-! ## Change files and stats (`computeStats`) -/

inductive ChangeKind where
  | write | delete | rename
  deriving DecidableEq, Repr

structure ChangeFile where
  kind : ChangeKind
  path : String
  before : Option String
  after : Option String
  deriving DecidableEq, Repr

/-- `computeStats(files)` from the source. -/
def computeStats (files : List ChangeFile) : Nat × Nat × Nat :=
  let cnt := fun (k : LineKind) (f : ChangeFile) =>
    ((diffLines (f.before.getD "") (f.after.getD "")).filter
      (fun o => o.type = k)).length
  (files.length,
   (files.map (cnt LineKind.add)).sum,
   (files.map (cnt LineKind.del)).sum)

/-- Modelled from the spec: the program itself never renders a unified diff
(its `diffLines` output is used for counting only), but the round-trip
property quantifies over "a standard line differ", so we render the line
differ's script in the standard single-hunk unified format: an
`@@ -1,oldN +1,newN @@` header followed by the ops, context prefixed by a
space, adds by `+`, deletes by `-`. -/
def renderUnifiedDiff (before after : String) : String :=
  let ops := diffLines before after
  let oldN := (ops.filter (fun o => o.type ≠ LineKind.add)).length
  let newN := (ops.filter (fun o => o.type ≠ LineKind.del)).length
  joinNL (("@@ -1," ++ toString oldN ++ " +1," ++ toString newN ++ " @@") ::
    ops.map (fun o =>
      (match o.type with
       | LineKind.ctx => " "
       | LineKind.add => "+"
       | LineKind.del => "-") ++ o.line))

/-! ## Edit operations (`AiEditOp`)

The TS type has optional string fields `op/path/content/from/to`; `from` and
`to` are Lean keywords, so the fields are named `fromPath`/`toPath` here. -/

structure AiEditOp where
  op : Option String := none
  path : Option String := none
  content : Option String := none
  fromPath : Option String := none
  toPath : Option String := none
  deriving DecidableEq, Repr

/-- `(e.op || "").toLowerCase()`. -/
def opLower (e : AiEditOp) : String := toLowerS (e.op.getD "")

/-! ## Git path normalization and the multi-file splitter -/

/-- `normalizeGitPath(p)` from the source. -/
def normalizeGitPath (p : String) : String :=
  let t := trimS p
  if t = "/dev/null" then t
  else if startsWithS t "a/" then String.mk (t.data.drop 2)
  else if startsWithS t "b/" then String.mk (t.data.drop 2)
  else t

/-- Group the lines of a combined diff into `diff --git `-delimited blocks
(lines before the first marker are discarded). -/
def blockLoop : List String → List String → List (List String)
  | [], cur => if cur.isEmpty then [] else [cur]
  | l :: rest, cur =>
    if startsWithS l "diff --git " then
      if cur.isEmpty then blockLoop rest [l] else cur :: blockLoop rest [l]
    else if cur.isEmpty then blockLoop rest []
    else blockLoop rest (cur ++ [l])

/-- The per-line header scan of a block: `rename from`/`rename to`,
`---`/`+++` paths (later lines overwrite earlier ones). -/
def scanBlockHeaders (b : List String) :
    Option String × Option String × Option String × Option String :=
  b.foldl
    (fun st l =>
      let (rf, rt, op', np) := st
      let rf := if startsWithS l "rename from " then
          some (normalizeGitPath (String.mk (l.data.drop 12))) else rf
      let rt := if startsWithS l "rename to " then
          some (normalizeGitPath (String.mk (l.data.drop 10))) else rt
      let op' := if startsWithS l "--- " then
          some (normalizeGitPath (String.mk (l.data.drop 4))) else op'
      let np := if startsWithS l "+++ " then
          some (normalizeGitPath (String.mk (l.data.drop 4))) else np
      (rf, rt, op', np))
    (none, none, none, none)

/-- Emission rules for a single block of `splitMultiFileGitDiffToEdits`. -/
def emitBlock (b : List String) : List AiEditOp :=
  let blockText := joinNL b
  let (renameFrom, renameTo, oldPath, newPath) := scanBlockHeaders b
  let isDelete := newPath == some "/dev/null" ||
    b.any (fun x => startsWithS x "deleted file mode")
  let isNew := oldPath == some "/dev/null" ||
    b.any (fun x => startsWithS x "new file mode")
  match renameFrom, renameTo with
  | some rf, some rt =>
    if rf ≠ "" ∧ rt ≠ "" then
      { op := some "rename", fromPath := some rf, toPath := some rt } ::
        (if strIncludes blockText "@@ " then
          [{ op := some "patch", path := some rt, content := some blockText }]
        else [])
    else emitBlockNoRename blockText oldPath newPath isDelete isNew
  | _, _ => emitBlockNoRename blockText oldPath newPath isDelete isNew
where
  emitBlockNoRename (blockText : String) (oldPath newPath : Option String)
      (isDelete isNew : Bool) : List AiEditOp :=
    let path : Option String :=
      match newPath with
      | some np =>
        if np ≠ "" ∧ np ≠ "/dev/null" then some np
        else
          match oldPath with
          | some op' => if op' ≠ "" ∧ op' ≠ "/dev/null" then some op' else none
          | none => none
      | none =>
        match oldPath with
        | some op' => if op' ≠ "" ∧ op' ≠ "/dev/null" then some op' else none
        | none => none
    match path with
    | none => []
    | some p =>
      if isDelete then [{ op := some "delete", path := some p }]
      else if strIncludes blockText "@@ " then
        [{ op := some "patch", path := some p, content := some blockText }]
      else if isNew then
        [{ op := some "write", path := some p, content := some "" }]
      else []

/-- `splitMultiFileGitDiffToEdits(diffText)` from the source. -/
def splitMultiFileGitDiffToEdits (diffText : String) : List AiEditOp :=
  ((blockLoop (splitLines diffText) []).map emitBlock).flatten

/-! ## Path sanitizer (`basename`, `sanitizePath`, `normalizeAiEdits`) -/

def replSlashC (c : Char) : Char := if c = '\\' then '/' else c

def isAsciiLetter (c : Char) : Bool :=
  ('A' ≤ c && c ≤ 'Z') || ('a' ≤ c && c ≤ 'z')

/-- `basename(p)` from the source: slash-normalize, split on `/`, return the
last nonempty segment, or `p` itself when there is none. -/
def basename (p : String) : String :=
  match ((splitCh '/' (p.data.map replSlashC)).filter
      (fun seg => seg ≠ [])).getLast? with
  | some s => String.mk s
  | none => p

/-- `while (p.startsWith("./")) p = p.slice(2)`. -/
def dropDotSlash : Chars → Chars
  | '.' :: '/' :: rest => dropDotSlash rest
  | l => l

/-- `.replace(/\/$/, "")`: drop a single trailing slash. -/
def stripTrailSlash (l : Chars) : Chars :=
  match l.getLast? with
  | some '/' => l.dropLast
  | _ => l

/-- `/^[A-Za-z]:\//` or a leading `/`: the "still absolute" test. -/
def looksAbsoluteL (p : Chars) : Bool :=
  match p with
  | '/' :: _ => true
  | c :: ':' :: '/' :: _ => isAsciiLetter c
  | _ => false

/-- `if (p.startsWith("/")) p = p.slice(1)`. -/
def stripLeadSlash : Chars → Chars
  | '/' :: t => t
  | l => l

/-- The workspace-root stripping step of `sanitizePath`. -/
def rootStrip (p1 : Chars) (workspaceRoot : Option String) : Chars :=
  if stripTrailSlash ((workspaceRoot.getD "").data.map replSlashC) ≠ [] ∧
      (p1 = stripTrailSlash ((workspaceRoot.getD "").data.map replSlashC) ∨
        startsWithL
          (stripTrailSlash ((workspaceRoot.getD "").data.map replSlashC) ++ ['/'])
          p1) then
    stripLeadSlash
      (p1.drop (stripTrailSlash ((workspaceRoot.getD "").data.map replSlashC)).length)
  else p1

/-- The collapse-to-basename fail-safe of `sanitizePath`. -/
def collapseStep (p2 : Chars) : Chars :=
  if looksAbsoluteL p2 || occursSub ['.', '.'] p2 then
    (basename (String.mk p2)).data
  else p2

/-- `sanitizePath(raw, workspaceRoot)` from `normalizeAiEdits`: trim; empty
stays empty; backslashes to slashes; strip `./` prefixes; strip the
workspace-root prefix (and a resulting leading slash); collapse to the
basename if still absolute or containing `..`; strip a leading slash. -/
def sanitizePath (raw : String) (workspaceRoot : Option String) : String :=
  if trimL raw.data = [] then String.mk (trimL raw.data)
  else
    String.mk (stripLeadSlash (collapseStep
      (rootStrip (dropDotSlash ((trimL raw.data).map replSlashC)) workspaceRoot)))

/-- The `sanitizeOne` closure of `normalizeAiEdits`: sanitize `from`/`to` of
a rename, or `path` of any other op carrying one; the `Bool` is this
element's contribution to `didSanitize`. -/
def sanitizeOne (workspaceRoot : Option String) (e : AiEditOp) : AiEditOp × Bool :=
  if opLower e = "rename" then
    let fromS := e.fromPath.map (fun s => sanitizePath s workspaceRoot)
    let toS := e.toPath.map (fun s => sanitizePath s workspaceRoot)
    let changedFrom : Bool :=
      match e.fromPath, fromS with
      | some s, some s' => s != "" && s' != "" && s != s'
      | _, _ => false
    let changedTo : Bool :=
      match e.toPath, toS with
      | some s, some s' => s != "" && s' != "" && s != s'
      | _, _ => false
    ({ e with fromPath := fromS, toPath := toS }, changedFrom || changedTo)
  else
    match e.path with
    | some raw =>
      let p := sanitizePath raw workspaceRoot
      ({ e with path := some p }, raw ≠ p)
    | none => (e, false)

/-- Whether the normalizer expands this operation through the multi-file
splitter: a `patch` whose content is a git diff and that either has no
usable path or embeds more than one `diff --git` block. -/
def shouldExpand (e : AiEditOp) : Bool :=
  if opLower e = "patch" then
    let patchText := e.content.getD ""
    let hasGitDiff := strIncludes patchText "diff --git " &&
      strIncludes patchText "@@ "
    let missingPath :=
      match e.path with
      | none => true
      | some s => trimS s = ""
    (missingPath && hasGitDiff) ||
      (hasGitDiff && strIncludes patchText "\ndiff --git ")
  else false

/-- One iteration of the normalizer's loop over the edit list. -/
def normalizeStep (workspaceRoot : Option String)
    (acc : List AiEditOp × Bool) (e : AiEditOp) : List AiEditOp × Bool :=
  if shouldExpand e then
    (acc.1 ++ ((splitMultiFileGitDiffToEdits (e.content.getD "")).map
        (sanitizeOne workspaceRoot)).map (·.1),
     ((splitMultiFileGitDiffToEdits (e.content.getD "")).map
        (sanitizeOne workspaceRoot)).foldl (fun b p => b || p.2) acc.2)
  else
    (acc.1 ++ [(sanitizeOne workspaceRoot e).1],
     acc.2 || (sanitizeOne workspaceRoot e).2)

/-- `normalizeAiEdits(edits, workspaceRoot)` from the source; returns
`(edits, didSanitize)`. -/
def normalizeAiEdits (edits : List AiEditOp) (workspaceRoot : Option String) :
    List AiEditOp × Bool :=
  edits.foldl (normalizeStep workspaceRoot) ([], false)

/-! ## JSON values and a model of `JSON.parse`

The recoverer calls the JS builtin `JSON.parse`; we model it with a strict
recursive-descent parser over `List Char` following the JSON grammar
(ECMA-404): it fails on truncated input and requires the whole string to be
one value (modulo surrounding JSON whitespace). -/

inductive Json where
  | null
  | bool (b : Bool)
  | num (lexeme : String)
  | str (s : String)
  | arr (elems : List Json)
  | obj (fields : List (String × Json))

/-- JSON insignificant whitespace (space, tab, LF, CR). -/
def isWsJSON (c : Char) : Bool :=
  c == ' ' || c == '\t' || c == '\n' || c == '\r'

def hexVal (c : Char) : Option Nat :=
  let n := c.toNat
  if 48 ≤ n ∧ n ≤ 57 then some (n - 48)
  else if 97 ≤ n ∧ n ≤ 102 then some (n - 87)
  else if 65 ≤ n ∧ n ≤ 70 then some (n - 55)
  else none

/-- Body of a JSON string literal (after the opening quote): returns the
decoded string and the input after the closing quote. -/
def parseStrBody : Chars → Option (String × Chars)
  | [] => none
  | '"' :: rest => some ("", rest)
  | '\\' :: rest =>
    match rest with
    | '"' :: r => (parseStrBody r).map (fun p => (String.mk ('"' :: p.1.data), p.2))
    | '\\' :: r => (parseStrBody r).map (fun p => (String.mk ('\\' :: p.1.data), p.2))
    | '/' :: r => (parseStrBody r).map (fun p => (String.mk ('/' :: p.1.data), p.2))
    | 'b' :: r => (parseStrBody r).map (fun p => (String.mk ('\x08' :: p.1.data), p.2))
    | 'f' :: r => (parseStrBody r).map (fun p => (String.mk ('\x0c' :: p.1.data), p.2))
    | 'n' :: r => (parseStrBody r).map (fun p => (String.mk ('\n' :: p.1.data), p.2))
    | 'r' :: r => (parseStrBody r).map (fun p => (String.mk ('\r' :: p.1.data), p.2))
    | 't' :: r => (parseStrBody r).map (fun p => (String.mk ('\t' :: p.1.data), p.2))
    | 'u' :: h1 :: h2 :: h3 :: h4 :: r =>
      match hexVal h1, hexVal h2, hexVal h3, hexVal h4 with
      | some a, some b, some c, some d =>
        let n := ((a * 16 + b) * 16 + c) * 16 + d
        (parseStrBody r).map (fun p => (String.mk (Char.ofNat n :: p.1.data), p.2))
      | _, _, _, _ => none
    | _ => none
  | c :: rest =>
    if c.toNat < 32 then none
    else (parseStrBody rest).map (fun p => (String.mk (c :: p.1.data), p.2))

/-- JSON number: `-?(0|[1-9][0-9]*)(\.[0-9]+)?([eE][+-]?[0-9]+)?`; the lexeme
is kept verbatim (no numeric field of this code base is ever used). -/
def parseNumL (l : Chars) : Option (Json × Chars) :=
  let (sign, l1) : Chars × Chars :=
    match l with
    | '-' :: r => (['-'], r)
    | _ => ([], l)
  let intPart : Option (Chars × Chars) :=
    match l1 with
    | '0' :: r => some (['0'], r)
    | c :: _ =>
      if '1' ≤ c && c ≤ '9' then some (l1.takeWhile isDigitC, l1.dropWhile isDigitC)
      else none
    | [] => none
  match intPart with
  | none => none
  | some (ip, l2) =>
    let fracPart : Option (Chars × Chars) :=
      match l2 with
      | '.' :: r =>
        match r.takeWhile isDigitC with
        | [] => none
        | ds => some ('.' :: ds, r.dropWhile isDigitC)
      | _ => some ([], l2)
    match fracPart with
    | none => none
    | some (fp, l3) =>
      let expPart : Option (Chars × Chars) :=
        match l3 with
        | c :: r =>
          if c = 'e' ∨ c = 'E' then
            let (es, r2) : Chars × Chars :=
              match r with
              | '+' :: r' => ([c, '+'], r')
              | '-' :: r' => ([c, '-'], r')
              | _ => ([c], r)
            match r2.takeWhile isDigitC with
            | [] => none
            | ds => some (es ++ ds, r2.dropWhile isDigitC)
          else some ([], l3)
        | [] => some ([], l3)
      match expPart with
      | none => none
      | some (ep, l4) => some (.num (String.mk (sign ++ ip ++ fp ++ ep)), l4)

mutual

def parseVal : Nat → Chars → Option (Json × Chars)
  | 0, _ => none
  | fuel + 1, l =>
    match l.dropWhile isWsJSON with
    | '{' :: rest =>
      (match rest.dropWhile isWsJSON with
       | '}' :: r => some (.obj [], r)
       | r => parseFields fuel r)
    | '[' :: rest =>
      (match rest.dropWhile isWsJSON with
       | ']' :: r => some (.arr [], r)
       | r => parseElems fuel r)
    | '"' :: rest => (parseStrBody rest).map (fun p => (.str p.1, p.2))
    | 't' :: 'r' :: 'u' :: 'e' :: r => some (.bool true, r)
    | 'f' :: 'a' :: 'l' :: 's' :: 'e' :: r => some (.bool false, r)
    | 'n' :: 'u' :: 'l' :: 'l' :: r => some (.null, r)
    | c :: r => if c = '-' ∨ isDigitC c then parseNumL (c :: r) else none
    | [] => none

def parseFields : Nat → Chars → Option (Json × Chars)
  | 0, _ => none
  | fuel + 1, l =>
    match l with
    | '"' :: rest =>
      match parseStrBody rest with
      | none => none
      | some (key, r1) =>
        match r1.dropWhile isWsJSON with
        | ':' :: r2 =>
          match parseVal fuel r2 with
          | none => none
          | some (v, r3) =>
            match r3.dropWhile isWsJSON with
            | ',' :: r4 =>
              match parseFields fuel (r4.dropWhile isWsJSON) with
              | some (.obj fs, r) => some (.obj ((key, v) :: fs), r)
              | _ => none
            | '}' :: r4 => some (.obj [(key, v)], r4)
            | _ => none
        | _ => none
    | _ => none

def parseElems : Nat → Chars → Option (Json × Chars)
  | 0, _ => none
  | fuel + 1, l =>
    match parseVal fuel l with
    | none => none
    | some (v, r1) =>
      match r1.dropWhile isWsJSON with
      | ',' :: r2 =>
        match parseElems fuel r2 with
        | some (.arr vs, r) => some (.arr (v :: vs), r)
        | _ => none
      | ']' :: r2 => some (.arr [v], r2)
      | _ => none

end

/-- Model of `JSON.parse(s)` wrapped in `try`/`catch` (the `tryParse` helper
of the recoverer): `none` on any syntax error. -/
def jsonParseJS (s : String) : Option Json :=
  match parseVal (s.data.length + 1) s.data with
  | some (j, rest) => if rest.dropWhile isWsJSON = [] then some j else none
  | none => none

/-- Field lookup on a parsed JS object; `JSON.parse` keeps the last duplicate
key, so lookup takes the last binding.  Non-objects have no fields. -/
def jsonField (j : Json) (name : String) : Option Json :=
  match j with
  | .obj fs => ((fs.filter (fun f => f.1 == name)).getLast?).map (·.2)
  | _ => none

def jsonStrField (j : Json) (name : String) : Option String :=
  match jsonField j name with
  | some (.str s) => some s
  | _ => none

/-- The TS cast `parsedArr as AiEditOp[]`: keep the declared string fields of
each element (anything else is `undefined` to every consumer). -/
def toAiEditOp (j : Json) : AiEditOp :=
  { op := jsonStrField j "op", path := jsonStrField j "path",
    content := jsonStrField j "content", fromPath := jsonStrField j "from",
    toPath := jsonStrField j "to" }

/-! ## Structured-output recoverer (`tryParseEditsFromAssistantOutput`) -/

/-- The string-aware first-balanced-`\x7b...\x7d` scan of the recoverer:
returns the start index and inclusive end index of the substring handed to
`tryParse`.  State: position, depth, recorded start, in-string, escape. -/
def braceScan : Chars → Nat → Int → Option Nat → Bool → Bool → Option (Nat × Nat)
  | [], _, _, _, _, _ => none
  | c :: rest, i, depth, start, inStr, esc =>
    if inStr then
      if esc then braceScan rest (i + 1) depth start true false
      else if c = '\\' then braceScan rest (i + 1) depth start true true
      else if c = '"' then braceScan rest (i + 1) depth start false false
      else braceScan rest (i + 1) depth start true false
    else if c = '"' then braceScan rest (i + 1) depth start true false
    else if c = '{' then
      braceScan rest (i + 1) (depth + 1)
        (if depth == 0 then some i else start) false false
    else if c = '}' then
      match start with
      | some s => if depth - 1 == 0 then some (s, i)
          else braceScan rest (i + 1) (depth - 1) start false false
      | none => braceScan rest (i + 1) (depth - 1) none false false
    else braceScan rest (i + 1) depth start false false

/-- The string-aware balanced-`[...]` scan of `extractEditsArray`: given input
starting at the opening bracket, the inclusive index of the matching close. -/
def bracketScan : Chars → Nat → Int → Bool → Bool → Option Nat
  | [], _, _, _, _ => none
  | c :: rest, i, depth, inStr, esc =>
    if inStr then
      if esc then bracketScan rest (i + 1) depth true false
      else if c = '\\' then bracketScan rest (i + 1) depth true true
      else if c = '"' then bracketScan rest (i + 1) depth false false
      else bracketScan rest (i + 1) depth true false
    else if c = '"' then bracketScan rest (i + 1) depth true false
    else if c = '[' then bracketScan rest (i + 1) (depth + 1) false false
    else if c = ']' then
      if depth - 1 == 0 then some i
      else bracketScan rest (i + 1) (depth - 1) false false
    else bracketScan rest (i + 1) depth false false

/-- `extractEditsArray(text)` from the recoverer: find `"edits"`, then the
next `[`, bracket-scan to its matching `]`, and `JSON.parse` that slice;
non-arrays yield `null`. -/
def extractEditsArray (text : Chars) : Option (List Json) :=
  match findSubIdx "\"edits\"".data text with
  | none => none
  | some idx =>
    let after := text.drop idx
    match findSubIdx ['['] after with
    | none => none
    | some arrStart =>
      let s := after.drop arrStart
      match bracketScan s 0 0 false false with
      | none => none
      | some i =>
        match jsonParseJS (String.mk (s.take (i + 1))) with
        | some (.arr es) => some es
        | _ => none

/-- The regex `^([-*]|\d+\.)\s+` strip applied to plan lines. -/
def stripBullet (l : Chars) : Chars :=
  let afterMark : Option Chars :=
    match l with
    | '-' :: r => some r
    | '*' :: r => some r
    | _ =>
      match l.takeWhile isDigitC, l.dropWhile isDigitC with
      | [], _ => none
      | _ :: _, '.' :: r => some r
      | _, _ => none
  match afterMark with
  | some (c :: r) => if isWsJS c then (c :: r).dropWhile isWsJS else l
  | _ => l

structure ParsedAssistantOutput where
  message : String
  edits : List AiEditOp
  think : Option String := none
  plan : Option (List String) := none
  verify : Option String := none
  doneMsg : Option String := none
  deriving DecidableEq, Repr

/-- `tryParseEditsFromAssistantOutput(raw)` from the source (the `done`
field is named `doneMsg` here). -/
def tryParseEditsFromAssistantOutput (raw : String) : Option ParsedAssistantOutput :=
  let t := trimS raw
  if t = "" then none
  else
    let direct := jsonParseJS t
    let parsed : Option Json :=
      match direct with
      | some j => some j
      | none =>
        match braceScan t.data 0 0 none false false with
        | some (s, i) => jsonParseJS (String.mk ((t.data.drop s).take (i + 1 - s)))
        | none => none
    let fallback : Option ParsedAssistantOutput :=
      match extractEditsArray t.data with
      | some es =>
        if es.isEmpty then none
        else some { message := "Proposed changes are ready.",
                    edits := es.map toAiEditOp }
      | none => none
    match parsed with
    | some j =>
      match j with
      | .obj _ | .arr _ =>
        match jsonField j "edits" with
        | some (.arr es) =>
          let msg :=
            match jsonStrField j "assistant_message" with
            | some m => m
            | none =>
              match jsonStrField j "summary" with
              | some m => m
              | none => "Proposed changes are ready."
          let plan : Option (List String) :=
            match jsonField j "plan" with
            | some (.arr xs) =>
              some (((xs.map (fun x =>
                  match x with
                  | .str s => trimS s
                  | _ => "")).filter (fun s => s ≠ "")).take 16)
            | some (.str s) =>
              some ((((splitCh '\n' s.data).map
                  (fun l => trimS (String.mk (stripBullet l)))).filter
                    (fun s => s ≠ "")).take 16)
            | _ => none
          some { message := trimS msg, edits := es.map toAiEditOp,
                 think := jsonStrField j "think", plan := plan,
                 verify := jsonStrField j "verify",
                 doneMsg := jsonStrField j "done" }
        | _ => fallback
      | _ => fallback
    | none => fallback

/-! ## Workspace model

The Workspace I/O capability (Tauri commands behind `workspaceReadFile`,
`workspaceWriteFile`, `workspaceDelete`, `workspaceRename`) is modelled as an
association list from workspace-relative paths to file contents.  Reads of a
missing file fail (the source catches that and substitutes `null`/`""`);
deleting or renaming a missing path is an OS-level failure; a rename replaces
an existing destination (POSIX `rename`). -/

abbrev Ws := List (String × String)

def wsGet (ws : Ws) (p : String) : Option String :=
  (ws.find? (fun e => e.1 == p)).map (·.2)

def wsErase (ws : Ws) (p : String) : Ws := ws.filter (fun e => e.1 != p)

def wsWrite (ws : Ws) (p c : String) : Ws := (p, c) :: wsErase ws p

def wsKeys (ws : Ws) : List String := ws.map (·.1)

/-- Pointwise equality of two workspace states (decidable: it suffices to
compare on the keys of both). -/
def wsSame (w1 w2 : Ws) : Bool :=
  (wsKeys w1 ++ wsKeys w2).all (fun q => wsGet w1 q == wsGet w2 q)

/-! ## ChangeSet builder (`buildChangeSet`)

The source closure resolves `before` content from an open editor tab or a
fresh workspace read; the claims quantify over workspace states `S`
consistent with the recorded contents, so reads are modelled as lookups in
`S` (open tabs agreeing with the disk).  The impure `id` field
(`Date.now()`/`Math.random()`) is never inspected by any claim and is
omitted. -/

structure ChangeSet where
  edits : List AiEditOp
  files : List ChangeFile
  stats : Nat × Nat × Nat
  applied : Bool
  deriving DecidableEq, Repr

/-- The dedup key recorded in the `seen` set for an operation, when the
operation reaches the `seen` check at all (`none` for `run`, unknown ops and
ops skipped for missing fields). -/
def keyOf (e : AiEditOp) : Option String :=
  let op := opLower e
  if op = "write" then
    let p := trimS (e.path.getD "")
    if p = "" then none else some ("w:" ++ p)
  else if op = "patch" then
    let p := trimS (e.path.getD "")
    if p = "" then none else some ("p:" ++ p)
  else if op = "delete" then
    let p := trimS (e.path.getD "")
    if p = "" then none else some ("d:" ++ p)
  else if op = "rename" then
    let f := trimS (e.fromPath.getD "")
    let t := trimS (e.toPath.getD "")
    if f = "" ∨ t = "" then none else some ("r:" ++ f ++ "->" ++ t)
  else none

/-- The `ChangeFile` one operation contributes (only reached when `keyOf`
produced a key, i.e. the op kind is recognized and its paths are nonempty);
only a `patch` whose diff fails to apply can error. -/
def mkChangeFile (S : Ws) (e : AiEditOp) : Except String ChangeFile :=
  let op := opLower e
  if op = "write" then
    let p := trimS (e.path.getD "")
    .ok ⟨ChangeKind.write, p, wsGet S p, some (e.content.getD "")⟩
  else if op = "patch" then
    let p := trimS (e.path.getD "")
    let before := (wsGet S p).getD ""
    match applyUnifiedDiffToText before (e.content.getD "") with
    | .error err => .error ("Failed to build changeset patch for " ++ p ++ ": " ++ err)
    | .ok text => .ok ⟨ChangeKind.write, p, some before, some text⟩
  else if op = "delete" then
    let p := trimS (e.path.getD "")
    .ok ⟨ChangeKind.delete, p, wsGet S p, none⟩
  else
    let f := trimS (e.fromPath.getD "")
    let t := trimS (e.toPath.getD "")
    let before := wsGet S f
    .ok ⟨ChangeKind.rename, f ++ " → " ++ t, before, before⟩

/-- The `for (const e of edits)` loop of `buildChangeSet`, threading the
`seen` set; a failing patch aborts the whole build. -/
def buildFilesAux (S : Ws) : List AiEditOp → List String → Except String (List ChangeFile)
  | [], _ => .ok []
  | e :: rest, seen =>
    match keyOf e with
    | none => buildFilesAux S rest seen
    | some k =>
      if seen.contains k then buildFilesAux S rest seen
      else
        match mkChangeFile S e with
        | .error err => .error err
        | .ok f =>
          match buildFilesAux S rest (seen ++ [k]) with
          | .error err => .error err
          | .ok fs => .ok (f :: fs)

/-- `buildChangeSet(edits)` against workspace state `S`. -/
def buildChangeSet (edits : List AiEditOp) (S : Ws) : Except String ChangeSet :=
  match buildFilesAux S edits [] with
  | .error e => .error e
  | .ok files =>
    .ok { edits := edits, files := files, stats := computeStats files,
          applied := false }

/-! ## Apply controller (`applyAiEditsNow`)

Only the workspace mutations are modelled (progress reporting, pacing, tab
refreshing and `run` queueing have no workspace effect).  The result is the
state reached together with the error that aborted the loop, if any —
`applyAiEditsNow` throws out of its `for` loop leaving earlier mutations in
place. -/

def stepOf (S : Ws) (e : AiEditOp) : Except String Ws :=
  if opLower e = "write" then
    if trimS (e.path.getD "") = "" then .error "AI edit op 'write' missing path"
    else .ok (wsWrite S (trimS (e.path.getD "")) (e.content.getD ""))
  else if opLower e = "patch" then
    if trimS (e.path.getD "") = "" then .error "AI edit op 'patch' missing path"
    else
      match applyUnifiedDiffToText ((wsGet S (trimS (e.path.getD ""))).getD "")
          (e.content.getD "") with
      | .error err => .error ("Failed to apply patch to " ++
          trimS (e.path.getD "") ++ ": " ++ err)
      | .ok text => .ok (wsWrite S (trimS (e.path.getD "")) text)
  else if opLower e = "delete" then
    if trimS (e.path.getD "") = "" then .error "AI edit op 'delete' missing path"
    else
      match wsGet S (trimS (e.path.getD "")) with
      | none => .error ("delete failed: " ++ trimS (e.path.getD ""))
      | some _ => .ok (wsErase S (trimS (e.path.getD "")))
  else if opLower e = "rename" then
    if trimS (e.fromPath.getD "") = "" ∨ trimS (e.toPath.getD "") = "" then
      .error "AI edit op 'rename' missing from/to"
    else
      match wsGet S (trimS (e.fromPath.getD "")) with
      | none => .error ("rename failed: " ++ trimS (e.fromPath.getD ""))
      | some v =>
        .ok (wsWrite (wsErase S (trimS (e.fromPath.getD "")))
          (trimS (e.toPath.getD "")) v)
  else if opLower e = "run" then
    if trimS (e.content.getD "") = "" then
      .error "AI edit op 'run' missing command in content"
    else .ok S
  else .error ("Unsupported AI edit op: " ++ (e.op.getD "undefined"))

def applyEdits (S : Ws) : List AiEditOp → Ws × Option String
  | [] => (S, none)
  | e :: rest =>
    match stepOf S e with
    | .error err => (S, some err)
    | .ok S' => applyEdits S' rest

/-! ## Revert controller (`rejectAllChanges`) -/

/-- `" → "`-splitting of a rename display path (JS `split` with a string
separator), via a character-level scanner. -/
def splitGo (sep : Chars) : Nat → Chars → Chars → List Chars
  | _, acc, [] => [acc.reverse]
  | 0, acc, l => [acc.reverse ++ l]
  | fuel + 1, acc, c :: rest =>
    if startsWithL sep (c :: rest) then
      acc.reverse :: splitGo sep fuel [] ((c :: rest).drop sep.length)
    else splitGo sep fuel (c :: acc) rest

def jsSplit (s sep : String) : List String :=
  (splitGo sep.data (s.data.length + 1) [] s.data).map String.mk

/-- The inverse operation of one `ChangeFile` (the body of the reverse loop
of `rejectAllChanges`). -/
def invOf (f : ChangeFile) : List AiEditOp :=
  match f.kind with
  | ChangeKind.write =>
    match f.before with
    | none => [{ op := some "delete", path := some f.path }]
    | some b => [{ op := some "write", path := some f.path, content := some b }]
  | ChangeKind.delete =>
    match f.before with
    | some b => [{ op := some "write", path := some f.path, content := some b }]
    | none => []
  | ChangeKind.rename =>
    match jsSplit f.path " → " with
    | [a, b] => [{ op := some "rename", fromPath := some b, toPath := some a }]
    | _ => []

/-- The inverse operation list built by `rejectAllChanges`: per-file inverses
in reverse file order. -/
def inverseOps (files : List ChangeFile) : List AiEditOp :=
  (files.reverse.map invOf).flatten

/-- `rejectAllChanges` on an applied ChangeSet: run the inverse list, then
clear the ChangeSet; on a `Proposed` set, just discard it.  Returns the new
ChangeSet slot, the workspace state reached and the error, if any (on error
the ChangeSet survives: the `setActiveChatChangeSet(null)` after the `await`
is skipped). -/
def rejectAllChanges (cs : ChangeSet) (ws : Ws) :
    Option ChangeSet × Ws × Option String :=
  if !cs.applied then (none, ws, none)
  else
    match applyEdits ws (inverseOps cs.files) with
    | (ws', none) => (none, ws', none)
    | (ws', some e) => (some cs, ws', some e)

/-! ## Per-file accept/reject (`acceptFileChange`, `rejectFileChange`) -/

/-- The shared shrink step of per-file accept/reject: drop the targeted
write-kind `ChangeFile`, recompute `stats` from the remaining files, and
retire the ChangeSet when nothing remains. -/
def shrinkFiles (cs : ChangeSet) (path : String) : Option ChangeSet :=
  if (cs.files.filter
      (fun x => !(x.kind == ChangeKind.write && x.path == path))).isEmpty then
    none
  else
    some { cs with
      files := cs.files.filter
        (fun x => !(x.kind == ChangeKind.write && x.path == path)),
      stats := computeStats (cs.files.filter
        (fun x => !(x.kind == ChangeKind.write && x.path == path))) }

/-- `rejectFileChange(path)`: returns the new ChangeSet slot, workspace and
error.  On an applied set the file's `before` content is written back (or the
file deleted when it did not pre-exist); an I/O failure leaves the ChangeSet
untouched (the shrink happens after the `await` inside `try`). -/
def rejectFileChange (cs : ChangeSet) (path : String) (ws : Ws) :
    Option ChangeSet × Ws × Option String :=
  match cs.files.find? (fun x => x.kind == ChangeKind.write && x.path == path) with
  | none => (some cs, ws, none)
  | some f =>
    if !cs.applied then (shrinkFiles cs path, ws, none)
    else
      match f.before with
      | none =>
        match wsGet ws path with
        | none => (some cs, ws, some ("delete failed: " ++ path))
        | some _ => (shrinkFiles cs path, wsErase ws path, none)
      | some b => (shrinkFiles cs path, wsWrite ws path b, none)

/-- `acceptFileChange(path)`: on a `Proposed` set with matching edits the
file's edits are applied and the whole set is flagged `applied` (files are
not shrunk); with no matching edits, or on an already applied set, the file
entry is removed and stats recomputed; an emptied set is retired. -/
def acceptFileChange (cs : ChangeSet) (path : String) (ws : Ws) :
    Option ChangeSet × Ws × Option String :=
  if !cs.applied then
    if (cs.edits.filter (fun e =>
        (opLower e == "write" || opLower e == "patch" || opLower e == "delete") &&
          trimS (e.path.getD "") == path)).isEmpty then
      (shrinkFiles cs path, ws, none)
    else
      match applyEdits ws (cs.edits.filter (fun e =>
          (opLower e == "write" || opLower e == "patch" || opLower e == "delete") &&
            trimS (e.path.getD "") == path)) with
      | (ws', none) => (some { cs with applied := true }, ws', none)
      | (ws', some e) => (some cs, ws', some e)
  else (shrinkFiles cs path, ws, none)

/-! # Helper lemmas -/

theorem string_ne_of_data_head {s t : String} (h : s.data.head? ≠ t.data.head?) :
    s ≠ t := fun he => h (he ▸ rfl)

theorem head_of_append (s t : String) {c : Char} (h : s.data.head? = some c) :
    (s ++ t).data.head? = some c := by
  rw [String.data_append]
  cases hs : s.data with
  | nil => rw [hs] at h; cases h
  | cons a l => rw [hs] at h; simpa using h

/-- Any index returned by the scanning loop is at least the initial lower
bound (provided the carried best is). -/
theorem fssScan_some_ge (hay seq : List String) (pref : Nat) :
    ∀ (cnt i : Nat) (best : Option (Nat × Nat)) (lo : Nat), lo ≤ i →
    (∀ bi bd, best = some (bi, bd) → lo ≤ bi) →
    ∀ r, fssScan hay seq pref cnt i best = some r → lo ≤ r := by
  intro cnt
  induction cnt with
  | zero =>
    intro i best lo _ hbest r hr
    simp only [fssScan] at hr
    cases best with
    | none => simp at hr
    | some p =>
      simp only [Option.map_some', Option.some.injEq] at hr
      exact hr ▸ hbest p.1 p.2 rfl
  | succ n ih =>
    intro i best lo hi hbest r hr
    have hi' : lo ≤ i + 1 := Nat.le_succ_of_le hi
    rcases best with _ | ⟨bi, bd⟩ <;> simp only [fssScan] at hr
    · split at hr
      · split at hr
        · injection hr with hr; omega
        · exact ih (i + 1) _ lo hi'
            (by rintro bi' bd' h; injection h with h; injection h with h1 h2; omega) r hr
      · exact ih (i + 1) _ lo hi' (by rintro bi' bd' h; cases h) r hr
    · split at hr
      · split at hr
        · split at hr
          · injection hr with hr; omega
          · exact ih (i + 1) _ lo hi'
              (by rintro bi' bd' h; injection h with h; injection h with h1 h2; omega) r hr
        · exact ih (i + 1) _ lo hi' hbest r hr
      · exact ih (i + 1) _ lo hi' hbest r hr

/-- `findSequenceStart` never returns an index below `minIndex`. -/
theorem findSequenceStart_ge (hay seq : List String) (minIndex pref i : Nat)
    (h : findSequenceStart hay seq minIndex pref = some i) : minIndex ≤ i := by
  unfold findSequenceStart at h
  by_cases hlen : seq.length = 0
  · simp only [hlen, if_true, Option.some.injEq] at h
    exact h ▸ Nat.le_max_left _ _
  · simp only [hlen, if_false] at h
    by_cases hh : hay.length < seq.length
    · simp [hh] at h
    · simp only [hh, if_false] at h
      by_cases hm : hay.length - seq.length < minIndex
      · simp [hm] at h
      · simp only [hm, if_false] at h
        exact fssScan_some_ge hay seq pref _ minIndex none minIndex le_rfl
          (by rintro bi bd ⟨⟩) i h

/-- Every error produced by the hunk-line walk is a context or delete
mismatch (first letter `C` or `D`). -/
theorem walkHunkLines_error_head (a : List String) :
    ∀ (ls : List UnifiedDiffHunkLine) (out : List String) (ai : Nat) (e : String),
    walkHunkLines a ls out ai = .error e →
    e.data.head? = some 'C' ∨ e.data.head? = some 'D' := by
  intro ls
  induction ls with
  | nil => intro out ai e h; simp [walkHunkLines] at h
  | cons hl rest ih =>
    intro out ai e h
    simp only [walkHunkLines] at h
    cases hk : hl.kind with
    | ctx =>
      rw [hk] at h
      cases hget : a.get? ai with
      | some t =>
        rw [hget] at h
        by_cases he : t = hl.text
        · simp only [he, if_true] at h; exact ih _ _ _ h
        · simp only [he, if_false, Except.error.injEq] at h
          refine Or.inl ?_
          rw [← h]; simp only [String.data_append, List.head?_append]; rfl
      | none =>
        rw [hget] at h
        simp only [Except.error.injEq] at h
        refine Or.inl ?_
        rw [← h]; simp only [String.data_append, List.head?_append]; rfl
    | del =>
      rw [hk] at h
      cases hget : a.get? ai with
      | some t =>
        rw [hget] at h
        by_cases he : t = hl.text
        · simp only [he, if_true] at h; exact ih _ _ _ h
        · simp only [he, if_false, Except.error.injEq] at h
          refine Or.inr ?_
          rw [← h]; simp only [String.data_append, List.head?_append]; rfl
      | none =>
        rw [hget] at h
        simp only [Except.error.injEq] at h
        refine Or.inr ?_
        rw [← h]; simp only [String.data_append, List.head?_append]; rfl
    | add => rw [hk] at h; exact ih _ _ _ h

/-- The hunk loop can fail only with a locate error (`F…`) or a mismatch
error (`C…`/`D…`) — never with the overlap error. -/
theorem applyHunks_ne_overlap (a : List String) :
    ∀ (hs : List UnifiedDiffHunk) (out : List String) (ai : Nat),
    applyHunks a hs out ai ≠ .error "Patch hunk overlaps previous hunk" := by
  intro hs
  induction hs with
  | nil => intro out ai h; simp [applyHunks] at h
  | cons hk rest ih =>
    intro out ai h
    simp only [applyHunks] at h
    cases hf : findSequenceStart a (oldSeqOf hk) ai (hk.oldStart - 1) with
    | none =>
      rw [hf] at h
      simp only [Except.error.injEq] at h
      refine absurd h (string_ne_of_data_head ?_)
      have h1 : ("Failed to locate hunk context in file (starting near line " ++
          toString (hk.oldStart - 1 + 1) ++ ").").data.head? = some 'F' := by
        simp only [String.data_append, List.head?_append]; rfl
      rw [h1]; decide
    | some idx =>
      rw [hf] at h
      have hge := findSequenceStart_ge a (oldSeqOf hk) ai (hk.oldStart - 1) idx hf
      have : ¬ idx < ai := Nat.not_lt.mpr hge
      simp only [this, if_false] at h
      cases hw : walkHunkLines a hk.lines (out ++ (a.drop ai).take (idx - ai)) idx with
      | error e =>
        rw [hw] at h
        simp only [Except.error.injEq] at h
        rcases walkHunkLines_error_head a _ _ _ e hw with hc | hc <;>
          · apply absurd h
            apply string_ne_of_data_head
            rw [hc]; decide
      | ok p => rw [hw] at h; exact ih _ _ h

theorem natDist_eq_zero_iff (a b : Nat) : natDist a b = 0 ↔ a = b := by
  unfold natDist; omega

/-- A matching run needs `seq.length` lines of room. -/
theorem runAt_bound (hay seq : List String) (j : Nat) (hne : seq ≠ [])
    (h : runAt hay seq j = true) : j + seq.length ≤ hay.length := by
  unfold runAt at h
  have heq := eq_of_beq h
  have hlen := congrArg List.length heq
  simp only [List.length_take, List.length_drop] at hlen
  have : 1 ≤ seq.length := List.length_pos.mpr hne
  omega

/-- Full specification of the scanning loop: a returned index is a matching
run at or after the lower bound whose distance to `preferred` is minimal
among all candidate runs in the scanned range, with ties going to the
earliest; a `none` result means the range holds no run. -/
theorem fssScan_spec (hay seq : List String) (pref : Nat) :
    ∀ (cnt i : Nat) (best : Option (Nat × Nat)) (lo : Nat),
    lo ≤ i →
    (best = none → ∀ j, lo ≤ j → j < i → runAt hay seq j = false) →
    (∀ bi bd, best = some (bi, bd) →
       lo ≤ bi ∧ bi < i ∧ runAt hay seq bi = true ∧ bd = natDist bi pref ∧
       bd ≠ 0 ∧
       (∀ j, lo ≤ j → j < i → runAt hay seq j = true →
          bd ≤ natDist j pref ∧ (natDist j pref = bd → bi ≤ j))) →
    (∀ r, fssScan hay seq pref cnt i best = some r →
       lo ≤ r ∧ runAt hay seq r = true ∧
       (∀ j, lo ≤ j → j < i + cnt → runAt hay seq j = true →
          natDist r pref ≤ natDist j pref ∧
          (natDist j pref = natDist r pref → r ≤ j)))
    ∧ (fssScan hay seq pref cnt i best = none →
       ∀ j, lo ≤ j → j < i + cnt → runAt hay seq j = false) := by
  intro cnt
  induction cnt with
  | zero =>
    intro i best lo hlo hnone hsome
    constructor
    · intro r hr
      rcases best with _ | ⟨bi, bd⟩
      · simp [fssScan] at hr
      · simp only [fssScan, Option.map_some', Option.some.injEq] at hr
        obtain ⟨h1, h2, h3, h4, _, h6⟩ := hsome bi bd rfl
        subst hr
        exact ⟨h1, h3, fun j hj1 hj2 hj3 => by
          have := h6 j hj1 (by omega) hj3
          constructor
          · omega
          · intro hd; exact (this.2 (by omega))⟩
    · intro hr j hj1 hj2
      rcases best with _ | ⟨bi, bd⟩
      · exact hnone rfl j hj1 (by omega)
      · simp [fssScan] at hr
  | succ n ih =>
    intro i best lo hlo hnone hsome
    have hlo' : lo ≤ i + 1 := Nat.le_succ_of_le hlo
    by_cases hrun : runAt hay seq i = true
    · rcases best with _ | ⟨bi, bd⟩
      · -- no best yet
        by_cases hd : natDist i pref = 0
        · -- early break: the run at i is at distance 0
          constructor
          · intro r hr
            simp only [fssScan, hrun, if_true] at hr
            rw [if_pos hd] at hr
            injection hr with hr
            subst hr
            refine ⟨hlo, hrun, fun j hj1 hj2 hj3 => ⟨by omega, fun hdj => ?_⟩⟩
            have hj : j = pref := (natDist_eq_zero_iff j pref).mp (by omega)
            have hip : i = pref := (natDist_eq_zero_iff i pref).mp hd
            omega
          · intro hr
            simp only [fssScan, hrun, if_true] at hr
            rw [if_pos hd] at hr
            cases hr
        · -- record (i, dist) and continue
          have hrec := ih (i + 1) (some (i, natDist i pref)) lo hlo'
            (by intro h; cases h)
            (by
              rintro bi' bd' h
              injection h with h
              injection h with h1 h2
              subst h1; subst h2
              refine ⟨hlo, by omega, hrun, rfl, hd, fun j hj1 hj2 hj3 => ?_⟩
              rcases Nat.lt_or_ge j i with hji | hji
              · exact absurd hj3 (by simp [hnone rfl j hj1 hji])
              · have : j = i := by omega
                subst this
                exact ⟨le_rfl, fun _ => le_rfl⟩)
          constructor
          · intro r hr
            simp only [fssScan, hrun, if_true] at hr
            rw [if_neg hd] at hr
            obtain ⟨h1, h2, h3⟩ := hrec.1 r hr
            exact ⟨h1, h2, fun j hj1 hj2 hj3 => h3 j hj1 (by omega) hj3⟩
          · intro hr
            simp only [fssScan, hrun, if_true] at hr
            rw [if_neg hd] at hr
            intro j hj1 hj2
            exact hrec.2 hr j hj1 (by omega)
      · -- have a best (bi, bd)
        obtain ⟨hb1, hb2, hb3, hb4, hb5, hb6⟩ := hsome bi bd rfl
        by_cases hlt : natDist i pref < bd
        · by_cases hd : natDist i pref = 0
          · -- early break
            constructor
            · intro r hr
              simp only [fssScan, hrun, if_true] at hr
              rw [if_pos hlt, if_pos hd] at hr
              injection hr with hr
              subst hr
              refine ⟨hlo, hrun, fun j hj1 hj2 hj3 => ⟨by omega, fun hdj => ?_⟩⟩
              have hj : j = pref := (natDist_eq_zero_iff j pref).mp (by omega)
              have hip : i = pref := (natDist_eq_zero_iff i pref).mp hd
              omega
            · intro hr
              simp only [fssScan, hrun, if_true] at hr
              rw [if_pos hlt, if_pos hd] at hr
              cases hr
          · -- better: replace best and continue
            have hrec := ih (i + 1) (some (i, natDist i pref)) lo hlo'
              (by intro h; cases h)
              (by
                rintro bi' bd' h
                injection h with h
                injection h with h1 h2
                subst h1; subst h2
                refine ⟨hlo, by omega, hrun, rfl, hd, fun j hj1 hj2 hj3 => ?_⟩
                rcases Nat.lt_or_ge j i with hji | hji
                · have := hb6 j hj1 hji hj3
                  exact ⟨by omega, fun hdj => by omega⟩
                · have : j = i := by omega
                  subst this
                  exact ⟨le_rfl, fun _ => le_rfl⟩)
            constructor
            · intro r hr
              simp only [fssScan, hrun, if_true] at hr
              rw [if_pos hlt, if_neg hd] at hr
              obtain ⟨h1, h2, h3⟩ := hrec.1 r hr
              exact ⟨h1, h2, fun j hj1 hj2 hj3 => h3 j hj1 (by omega) hj3⟩
            · intro hr
              simp only [fssScan, hrun, if_true] at hr
              rw [if_pos hlt, if_neg hd] at hr
              intro j hj1 hj2
              exact hrec.2 hr j hj1 (by omega)
        · -- not better: keep best
          have hrec := ih (i + 1) (some (bi, bd)) lo hlo'
            (by intro h; cases h)
            (by
              rintro bi' bd' h
              injection h with h
              injection h with h1 h2
              subst h1; subst h2
              refine ⟨hb1, by omega, hb3, hb4, hb5, fun j hj1 hj2 hj3 => ?_⟩
              rcases Nat.lt_or_ge j i with hji | hji
              · exact hb6 j hj1 hji hj3
              · have : j = i := by omega
                subst this
                exact ⟨by omega, fun hdj => by omega⟩)
          constructor
          · intro r hr
            simp only [fssScan, hrun, if_true] at hr
            rw [if_neg hlt] at hr
            obtain ⟨h1, h2, h3⟩ := hrec.1 r hr
            exact ⟨h1, h2, fun j hj1 hj2 hj3 => h3 j hj1 (by omega) hj3⟩
          · intro hr
            simp only [fssScan, hrun, if_true] at hr
            rw [if_neg hlt] at hr
            intro j hj1 hj2
            exact hrec.2 hr j hj1 (by omega)
    · -- no run at i
      have hrun' : runAt hay seq i = false := by
        simpa using hrun
      have hrec := ih (i + 1) best lo hlo'
        (by
          intro h j hj1 hj2
          rcases Nat.lt_or_ge j i with hji | hji
          · exact hnone h j hj1 hji
          · have : j = i := by omega
            subst this; exact hrun')
        (by
          rintro bi' bd' h
          obtain ⟨h1, h2, h3, h4, h5, h6⟩ := hsome bi' bd' h
          refine ⟨h1, by omega, h3, h4, h5, fun j hj1 hj2 hj3 => ?_⟩
          rcases Nat.lt_or_ge j i with hji | hji
          · exact h6 j hj1 hji hj3
          · have : j = i := by omega
            subst this
            exact absurd hj3 (by simp [hrun']))
      constructor
      · intro r hr
        simp only [fssScan, hrun', Bool.false_eq_true, if_false] at hr
        obtain ⟨h1, h2, h3⟩ := hrec.1 r hr
        exact ⟨h1, h2, fun j hj1 hj2 hj3 => h3 j hj1 (by omega) hj3⟩
      · intro hr
        simp only [fssScan, hrun', Bool.false_eq_true, if_false] at hr
        intro j hj1 hj2
        exact hrec.2 hr j hj1 (by omega)

/-- Specification of `findSequenceStart` for a nonempty needle: a returned
index is a matching run at or after `minIndex`, closest to `preferredIndex`
among all such runs, ties to the earliest; `none` means no such run exists. -/
theorem findSequenceStart_spec (hay seq : List String) (minIdx pref : Nat)
    (hne : seq ≠ []) :
    (∀ i, findSequenceStart hay seq minIdx pref = some i →
       minIdx ≤ i ∧ runAt hay seq i = true ∧
       ∀ j, minIdx ≤ j → runAt hay seq j = true →
         natDist i pref ≤ natDist j pref ∧
         (natDist j pref = natDist i pref → i ≤ j))
    ∧ (findSequenceStart hay seq minIdx pref = none →
       ∀ j, minIdx ≤ j → runAt hay seq j = false) := by
  have hl0 : seq.length ≠ 0 := by
    intro h; exact hne (List.length_eq_zero.mp h)
  unfold findSequenceStart
  simp only [hl0, if_false]
  by_cases hh : hay.length < seq.length
  · simp only [hh, if_true]
    constructor
    · intro i h; cases h
    · intro _ j _
      by_cases hr : runAt hay seq j = true
      · exact absurd (runAt_bound hay seq j hne hr) (by omega)
      · simpa using hr
  · simp only [hh, if_false]
    by_cases hm : hay.length - seq.length < minIdx
    · simp only [hm, if_true]
      constructor
      · intro i h; cases h
      · intro _ j hj
        by_cases hr : runAt hay seq j = true
        · exact absurd (runAt_bound hay seq j hne hr) (by omega)
        · simpa using hr
    · simp only [hm, if_false]
      have hspec := fssScan_spec hay seq pref
        (hay.length - seq.length + 1 - minIdx) minIdx none minIdx le_rfl
        (by intro _ j _ hj2; omega)
        (by rintro bi bd h; cases h)
      constructor
      · intro i h
        obtain ⟨h1, h2, h3⟩ := hspec.1 i h
        refine ⟨h1, h2, fun j hj1 hj3 => ?_⟩
        have hb := runAt_bound hay seq j hne hj3
        exact h3 j hj1 (by omega) hj3
      · intro h j hj
        by_cases hr : runAt hay seq j = true
        · have hb := runAt_bound hay seq j hne hr
          exact absurd hr (by simp [hspec.2 h j hj (by omega)])
        · simpa using hr

/-! # Claims -/

/-! ## C1: round trip through the Line Differ and the Patch Applier -/

/-- C1: the round-trip property fails on the code. For `T = "x\ny"` and
`T' = "x"`, the source's own Line Differ `diffLines` returns the invalid
script `[del "x", ctx "y"]` (it claims `"y"` survives into `T'`, which does
not contain it): its Myers backtracking pass reads the snapshot pushed at the
end of the *current* round, whose wrong-parity diagonals are all absent, so
every `prevX` lookup falls back to `0`.  Rendering that script as a standard
unified diff and applying it to `T` with the Patch Applier succeeds but
produces `"y"`, not `T' = "x"`. -/
theorem c1_round_trip_fails_at_code :
    diffLines "x\ny" "x" =
      [⟨LineKind.del, "x"⟩, ⟨LineKind.ctx, "y"⟩] ∧
    renderUnifiedDiff "x\ny" "x" = "@@ -1,2 +1,1 @@\n-x\n y" ∧
    applyUnifiedDiffToText "x\ny" (renderUnifiedDiff "x\ny" "x") =
      .ok "y" ∧
    "y" ≠ "x" := by
  refine ⟨by decide, by decide, by rfl, by decide⟩

/-! ## C7: structured-output recovery fallback -/

/-- C7 counterexample: on the exact truncated text of the claim (both the
closing `]` of the array and the closing brace of the object are missing) the
recoverer returns `none`: the bracket-depth fallback never sees the array's
closing bracket.  The claim that this input still recovers the write
operation is false. -/
theorem c7_counterexample :
    tryParseEditsFromAssistantOutput
      "\x7b\"edits\": [\x7b\"op\":\"write\",\"path\":\"x.ts\",\"content\":\"hi\"\x7d" =
      none := by
  rfl

/-- C7 amended: the bracket-depth fallback recovers the single write
operation from assistant text whose `edits` array is closed but whose
enclosing object brace is missing — the fallback needs a balanced `[...]`
after the `"edits"` key, so only the object brace may be truncated away.
The second conjunct shows the recovery indeed goes through
`extractEditsArray`. -/
theorem c7_recovery_fallback :
    tryParseEditsFromAssistantOutput
      "\x7b\"edits\": [\x7b\"op\":\"write\",\"path\":\"x.ts\",\"content\":\"hi\"\x7d]" =
      some { message := "Proposed changes are ready.",
             edits := [{ op := some "write", path := some "x.ts",
                         content := some "hi" }] } ∧
    (extractEditsArray
        ("\x7b\"edits\": [\x7b\"op\":\"write\",\"path\":\"x.ts\",\"content\":\"hi\"\x7d]").data).map
        (List.map toAiEditOp) =
      some [{ op := some "write", path := some "x.ts", content := some "hi" }] := by
  exact ⟨rfl, rfl⟩

/-! ## C5: patch mismatch detection -/

/-- Bounded occurrence check: whether `seq` occurs as a contiguous run
anywhere in `hay`. -/
def occursIn (seq hay : List String) : Bool :=
  (List.range (hay.length + 1)).any (fun i => runAt hay seq i)

theorem occursIn_false_all {seq hay : List String}
    (h : occursIn seq hay = false) : ∀ i, runAt hay seq i = false := by
  intro i
  rcases seq with _ | ⟨s, seq'⟩
  · exfalso
    have h0 : runAt hay [] 0 = true := by simp [runAt]
    have : occursIn [] hay = true := by
      unfold occursIn
      rw [List.any_eq_true]
      exact ⟨0, List.mem_range.mpr (by omega), h0⟩
    rw [this] at h; cases h
  · by_cases hle : i ≤ hay.length
    · unfold occursIn at h
      rw [List.any_eq_false] at h
      exact Bool.not_eq_true _ |>.mp (h i (List.mem_range.mpr (by omega)))
    · unfold runAt
      have : hay.drop i = [] := List.drop_eq_nil_of_le (by omega)
      rw [this, List.take_nil]
      rfl

/-- If the hunk loop succeeds, every hunk's nonempty context+delete sequence
occurs somewhere in the base-line array. -/
theorem applyHunks_ok_occurs (a : List String) :
    ∀ (hs : List UnifiedDiffHunk) (out : List String) (ai : Nat)
      (res : List String),
    applyHunks a hs out ai = .ok res →
    ∀ h ∈ hs, oldSeqOf h ≠ [] → ∃ i, runAt a (oldSeqOf h) i = true := by
  intro hs
  induction hs with
  | nil => intro out ai res _ h hmem; cases hmem
  | cons hk rest ih =>
    intro out ai res hok h hmem hne
    simp only [applyHunks] at hok
    cases hf : findSequenceStart a (oldSeqOf hk) ai (hk.oldStart - 1) with
    | none => rw [hf] at hok; cases hok
    | some idx =>
      rw [hf] at hok
      have hge := findSequenceStart_ge a (oldSeqOf hk) ai (hk.oldStart - 1) idx hf
      have hnl : ¬ idx < ai := Nat.not_lt.mpr hge
      simp only [hnl, if_false] at hok
      cases hw : walkHunkLines a hk.lines (out ++ (a.drop ai).take (idx - ai)) idx with
      | error e => rw [hw] at hok; cases hok
      | ok p =>
        rw [hw] at hok
        cases hmem with
        | head =>
          exact ⟨idx, ((findSequenceStart_spec a (oldSeqOf hk) ai
            (hk.oldStart - 1) hne).1 idx hf).2.1⟩
        | tail _ hmem => exact ih _ _ res hok h hmem hne

/-- C5 counterexample: the hunk `[ctx "XX", del "YY", add "z"]` does not
match the base `"QQ\nRR"` anywhere, yet the error returned is the hunk-locate
failure, which quotes neither the expected line `"XX"` nor the actual base
line `"QQ"` — the claim's "error referencing both the expected and the actual
line" is false at this input. -/
theorem c5_counterexample :
    applyUnifiedDiffToText "QQ\nRR" "@@ -1,2 +1,2 @@\n XX\n-YY\n+z" =
      .error "Failed to locate hunk context in file (starting near line 1)." ∧
    strIncludes "Failed to locate hunk context in file (starting near line 1)."
      "XX" = false ∧
    strIncludes "Failed to locate hunk context in file (starting near line 1)."
      "QQ" = false := by
  exact ⟨rfl, by decide, by decide⟩

/-- C5 amended: for every base text and every hunk whose context+delete
sequence (nonempty) occurs nowhere in the base lines, the Patch Applier
fails with an error and produces no output text.  (The error is the locate
failure naming the vicinity line; the per-line expected/actual mismatch
errors exist in the code but are unreachable, because the anchor search only
resolves positions where the whole sequence already matches.) -/
theorem c5_mismatch_fails_closed (before patchText : String)
    (h : UnifiedDiffHunk) (hmem : h ∈ parseUnifiedDiff patchText)
    (hne : oldSeqOf h ≠ [])
    (hnowhere : occursIn (oldSeqOf h) (splitLines before) = false) :
    ∃ e, applyUnifiedDiffToText before patchText = .error e := by
  simp only [applyUnifiedDiffToText]
  split
  · exact ⟨"Patch has no hunks", rfl⟩
  · cases hap : applyHunks (splitLines before) (parseUnifiedDiff patchText) [] 0 with
    | error e => exact ⟨e, rfl⟩
    | ok out =>
      exfalso
      obtain ⟨i, hi⟩ := applyHunks_ok_occurs (splitLines before)
        (parseUnifiedDiff patchText) [] 0 out hap h hmem hne
      rw [occursIn_false_all hnowhere i] at hi
      cases hi

/-- C5 witness: the amended theorem applied at the counterexample's concrete
base and hunk. -/
theorem c5_witness :
    ∃ e, applyUnifiedDiffToText "QQ\nRR" "@@ -1,2 +1,2 @@\n XX\n-YY\n+z" =
      .error e :=
  c5_mismatch_fails_closed "QQ\nRR" "@@ -1,2 +1,2 @@\n XX\n-YY\n+z"
    ⟨1, 2, 1, 2, [⟨LineKind.ctx, "XX"⟩, ⟨LineKind.del, "YY"⟩, ⟨LineKind.add, "z"⟩]⟩
    (by decide) (by decide) (by decide)

/-! ## C6: fuzzy anchor selection -/

/-- C6: among all contiguous runs of base lines equal to the hunk's
context+delete sequence at or after the cursor, `findSequenceStart` selects
the one whose start index is numerically closest to the preferred index
(`oldStart - 1`), ties broken by the first run found during the ascending
scan (the smaller index); when no run exists at or after the cursor it
reports failure.  In particular, for base lines `[A,B,C,D,E]` and a hunk
declaring `oldStart = 1` with old sequence `[B,C]`, it locates the match at
index 1, and the Patch Applier rewrites the file rather than failing. -/
theorem c6_fuzzy_anchor :
    (∀ (hay seq : List String) (minIdx pref : Nat), seq ≠ [] →
       ∀ i, findSequenceStart hay seq minIdx pref = some i →
         minIdx ≤ i ∧ runAt hay seq i = true ∧
         ∀ j, minIdx ≤ j → runAt hay seq j = true →
           natDist i pref ≤ natDist j pref ∧
           (natDist j pref = natDist i pref → i ≤ j)) ∧
    (∀ (hay seq : List String) (minIdx pref : Nat), seq ≠ [] →
       findSequenceStart hay seq minIdx pref = none →
       ∀ j, minIdx ≤ j → runAt hay seq j = false) ∧
    findSequenceStart ["A", "B", "C", "D", "E"] ["B", "C"] 0 0 = some 1 ∧
    applyUnifiedDiffToText "A\nB\nC\nD\nE" "@@ -1,2 +1,2 @@\n B\n-C\n+X" =
      .ok "A\nB\nX\nD\nE" := by
  refine ⟨?_, ?_, by decide, by rfl⟩
  · intro hay seq minIdx pref hne i hi
    exact (findSequenceStart_spec hay seq minIdx pref hne).1 i hi
  · intro hay seq minIdx pref hne hn
    exact (findSequenceStart_spec hay seq minIdx pref hne).2 hn

/-- C6 witness: the soundness part applied at the example instance. -/
theorem c6_witness :
    0 ≤ 1 ∧ runAt ["A", "B", "C", "D", "E"] ["B", "C"] 1 = true :=
  ⟨(c6_fuzzy_anchor.1 ["A", "B", "C", "D", "E"] ["B", "C"] 0 0 (by decide) 1
      (by decide)).1,
   (c6_fuzzy_anchor.1 ["A", "B", "C", "D", "E"] ["B", "C"] 0 0 (by decide) 1
      (by decide)).2.1⟩

/-! ## C2: revert inverts apply -/

theorem wsGet_cons_pos (a : String × String) (w : Ws) (q : String)
    (h : a.1 = q) : wsGet (a :: w) q = some a.2 := by
  unfold wsGet
  simp only [List.find?_cons]
  rw [show ((a.1 == q) : Bool) = true from beq_iff_eq.mpr h]
  rfl

theorem wsGet_cons_neg (a : String × String) (w : Ws) (q : String)
    (h : ¬ a.1 = q) : wsGet (a :: w) q = wsGet w q := by
  unfold wsGet
  simp only [List.find?_cons]
  rw [show ((a.1 == q) : Bool) = false from beq_eq_false_iff_ne.mpr h]

theorem wsGet_wsErase (w : Ws) (p q : String) :
    wsGet (wsErase w p) q = if q = p then none else wsGet w q := by
  induction w with
  | nil =>
    show wsGet [] q = if q = p then none else wsGet ([] : Ws) q
    by_cases hq : q = p
    · rw [if_pos hq]; rfl
    · rw [if_neg hq]
  | cons a w' ih =>
    show wsGet (List.filter (fun e => e.1 != p) (a :: w')) q = _
    rw [List.filter_cons]
    by_cases ha : a.1 = p
    · rw [if_neg (by simp [ha])]
      rw [show List.filter (fun e => e.1 != p) w' = wsErase w' p from rfl, ih]
      by_cases hq : q = p
      · rw [if_pos hq, if_pos hq]
      · rw [if_neg hq, if_neg hq,
          wsGet_cons_neg a w' q (fun hc => hq (hc ▸ ha ▸ rfl))]
    · rw [if_pos (by simp [ha])]
      show wsGet (a :: wsErase w' p) q = _
      by_cases hh : a.1 = q
      · rw [wsGet_cons_pos a _ q hh]
        have hq : ¬ q = p := fun hc => ha (hh.trans hc)
        rw [if_neg hq, wsGet_cons_pos a w' q hh]
      · rw [wsGet_cons_neg a _ q hh, ih]
        by_cases hq : q = p
        · rw [if_pos hq, if_pos hq]
        · rw [if_neg hq, if_neg hq, wsGet_cons_neg a w' q hh]

theorem wsGet_wsWrite (w : Ws) (p c : String) (q : String) :
    wsGet (wsWrite w p c) q = if q = p then some c else wsGet w q := by
  show wsGet ((p, c) :: wsErase w p) q = _
  by_cases hq : q = p
  · rw [wsGet_cons_pos (p, c) _ q hq.symm, if_pos hq]
  · rw [wsGet_cons_neg (p, c) _ q (fun hc => hq (hc ▸ rfl)), if_neg hq]
    have := wsGet_wsErase w p q
    rw [if_neg hq] at this
    exact this

theorem wsGet_some_mem_keys (w : Ws) (q : String) (v : String)
    (h : wsGet w q = some v) : q ∈ wsKeys w := by
  unfold wsGet at h
  cases hf : w.find? (fun e => e.1 == q) with
  | none => rw [hf] at h; cases h
  | some a =>
    have hmem := List.mem_of_find?_eq_some hf
    have hpred := List.find?_some hf
    have : a.1 = q := beq_iff_eq.mp hpred
    rw [← this]
    exact List.mem_map.mpr ⟨a, hmem, rfl⟩

theorem wsSame_of_forall (w1 w2 : Ws) (h : ∀ q, wsGet w1 q = wsGet w2 q) :
    wsSame w1 w2 = true := by
  unfold wsSame
  simp only [List.all_eq_true]
  intro q _
  rw [h q]
  exact beq_self_eq_true _

theorem dropWhile_head_false (p : Char → Bool) :
    ∀ (l : Chars) (h0 : Char) (t0 : Chars), l.dropWhile p = h0 :: t0 →
    p h0 = false := by
  intro l
  induction l with
  | nil => intro h0 t0 h; cases h
  | cons c rest ih =>
    intro h0 t0 h
    rw [List.dropWhile_cons] at h
    by_cases hc : p c = true
    · rw [if_pos hc] at h
      exact ih h0 t0 h
    · rw [if_neg hc] at h
      injection h with h1 _
      subst h1
      exact Bool.not_eq_true _ |>.mp hc

theorem dropWhile_idem_of (p : Char → Bool) (l : Chars) :
    (l.dropWhile p).dropWhile p = l.dropWhile p := by
  cases h : l.dropWhile p with
  | nil => rfl
  | cons h0 t0 =>
    rw [List.dropWhile_cons, if_neg (by simp [dropWhile_head_false p l h0 t0 h])]

theorem dropWhile_getLast_eq (p : Char → Bool) :
    ∀ (l : Chars), l.dropWhile p ≠ [] →
    (l.dropWhile p).getLast? = l.getLast? := by
  intro l
  induction l with
  | nil => intro h; exact absurd rfl h
  | cons c rest ih =>
    intro h
    rw [List.dropWhile_cons] at h ⊢
    by_cases hc : p c = true
    · rw [if_pos hc] at h ⊢
      have hrest : rest ≠ [] := by
        intro hr
        rw [hr] at h
        exact h rfl
      rw [ih h]
      cases rest with
      | nil => exact absurd rfl hrest
      | cons b l' => rw [List.getLast?_cons_cons]
    · rw [if_neg hc]

theorem trimL_idem (l : Chars) : trimL (trimL l) = trimL l := by
  have step1 : (trimL l).dropWhile isWsJS = trimL l := by
    cases hu : (l.dropWhile isWsJS).reverse.dropWhile isWsJS with
    | nil =>
      rw [show trimL l
          = ((l.dropWhile isWsJS).reverse.dropWhile isWsJS).reverse from rfl,
        hu]
      rfl
    | cons c0 u' =>
      have hne : (l.dropWhile isWsJS).reverse.dropWhile isWsJS ≠ [] := by
        rw [hu]; exact List.cons_ne_nil _ _
      have hh : (trimL l).head? = (l.dropWhile isWsJS).head? := by
        rw [show trimL l
            = ((l.dropWhile isWsJS).reverse.dropWhile isWsJS).reverse from rfl,
          List.head?_reverse, dropWhile_getLast_eq isWsJS _ hne,
          List.getLast?_reverse]
      cases ha : l.dropWhile isWsJS with
      | nil =>
        exfalso
        apply hne
        rw [ha]
        rfl
      | cons a0 a' =>
        have hw : isWsJS a0 = false := dropWhile_head_false isWsJS l a0 a' ha
        have hh2 : (trimL l).head? = some a0 := by rw [hh, ha]; rfl
        cases ht : trimL l with
        | nil => rw [ht] at hh2; cases hh2
        | cons b0 t' =>
          rw [ht] at hh2
          injection hh2 with hb
          subst hb
          rw [List.dropWhile_cons, if_neg (by simp [hw])]
  have step2 : ((trimL l).reverse).dropWhile isWsJS = (trimL l).reverse := by
    rw [show trimL l
        = ((l.dropWhile isWsJS).reverse.dropWhile isWsJS).reverse from rfl,
      List.reverse_reverse]
    exact dropWhile_idem_of isWsJS (l.dropWhile isWsJS).reverse
  show (((trimL l).dropWhile isWsJS).reverse.dropWhile isWsJS).reverse = trimL l
  rw [step1, step2, List.reverse_reverse]

theorem trimS_idem (s : String) : trimS (trimS s) = trimS s := by
  show String.mk (trimL (String.mk (trimL s.data)).data) = String.mk (trimL s.data)
  rw [show (String.mk (trimL s.data)).data = trimL s.data from rfl, trimL_idem]

theorem splitGo_no_sep (sep : Chars) :
    ∀ (fuel : Nat) (l acc : Chars), occursSub sep l = false →
    splitGo sep fuel acc l = [acc.reverse ++ l] := by
  intro fuel
  induction fuel with
  | zero =>
    intro l acc _
    cases l with
    | nil => show [acc.reverse] = [acc.reverse ++ []]; rw [List.append_nil]
    | cons c rest => rfl
  | succ fl ih =>
    intro l acc h
    cases l with
    | nil => show [acc.reverse] = [acc.reverse ++ []]; rw [List.append_nil]
    | cons c rest =>
      simp only [occursSub, Bool.or_eq_false_iff] at h
      show (if startsWithL sep (c :: rest) then _ else _) = _
      rw [if_neg (by simp [h.1]), ih rest (c :: acc) h.2]
      rw [List.reverse_cons, List.append_assoc]
      rfl

theorem startsWithL_arrow_head_false (c : Char) (v : Chars)
    (hv : v.all (fun c => c != '→') = true) :
    startsWithL [' ', '→', ' '] (c :: v) = false := by
  cases v with
  | nil =>
    show ((' ' == c) && startsWithL ['→', ' '] []) = false
    rw [show startsWithL ['→', ' '] ([] : Chars) = false from rfl, Bool.and_false]
  | cons c2 v' =>
    simp only [List.all_cons, Bool.and_eq_true] at hv
    show ((' ' == c) && (('→' == c2) && startsWithL [' '] v')) = false
    rw [show (('→' == c2) : Bool) = false from
        beq_eq_false_iff_ne.mpr (Ne.symm (bne_iff_ne.mp hv.1)),
      Bool.false_and, Bool.and_false]

theorem occursSub_arrow_free (v : Chars)
    (hv : v.all (fun c => c != '→') = true) :
    occursSub [' ', '→', ' '] v = false := by
  induction v with
  | nil => rfl
  | cons c v' ih =>
    simp only [List.all_cons, Bool.and_eq_true] at hv
    show (startsWithL [' ', '→', ' '] (c :: v') ||
      occursSub [' ', '→', ' '] v') = false
    rw [startsWithL_arrow_head_false c v' hv.2,
      ih hv.2, Bool.or_self]

theorem startsWithL_arrow_mid_false (c : Char) (u' v : Chars)
    (hu' : u'.all (fun c => c != '→') = true) :
    startsWithL [' ', '→', ' '] (c :: (u' ++ ' ' :: '→' :: ' ' :: v))
      = false := by
  cases u' with
  | nil =>
    show ((' ' == c) &&
      (('→' == ' ') && startsWithL [' '] ('→' :: ' ' :: v))) = false
    rw [show (('→' == ' ') : Bool) = false from rfl, Bool.false_and,
      Bool.and_false]
  | cons c2 u'' =>
    simp only [List.all_cons, Bool.and_eq_true] at hu'
    rw [List.cons_append]
    show ((' ' == c) &&
      (('→' == c2) && startsWithL [' '] (u'' ++ ' ' :: '→' :: ' ' :: v)))
      = false
    rw [show (('→' == c2) : Bool) = false from
        beq_eq_false_iff_ne.mpr (Ne.symm (bne_iff_ne.mp hu'.1)),
      Bool.false_and, Bool.and_false]

theorem splitGo_arrow (u : Chars) :
    ∀ (fuel : Nat) (acc v : Chars),
    u.all (fun c => c != '→') = true → v.all (fun c => c != '→') = true →
    u.length + 1 ≤ fuel →
    splitGo [' ', '→', ' '] fuel acc (u ++ ' ' :: '→' :: ' ' :: v) =
      [acc.reverse ++ u, v] := by
  induction u with
  | nil =>
    intro fuel acc v _ hv hfuel
    cases fuel with
    | zero => exact absurd hfuel (by simp)
    | succ fl =>
      rw [List.nil_append]
      simp only [splitGo]
      rw [if_pos (show startsWithL [' ', '→', ' ']
          (' ' :: '→' :: ' ' :: v) = true from rfl)]
      rw [show (' ' :: '→' :: ' ' :: v).drop
          ([' ', '→', ' '] : Chars).length = v from rfl]
      rw [splitGo_no_sep [' ', '→', ' '] fl v []
        (occursSub_arrow_free v hv)]
      rw [List.append_nil]
      rfl
  | cons c u' ih =>
    intro fuel acc v hu hv hfuel
    simp only [List.all_cons, Bool.and_eq_true] at hu
    cases fuel with
    | zero => exact absurd hfuel (by simp)
    | succ fl =>
      rw [List.cons_append]
      simp only [splitGo]
      rw [if_neg (fun hc => by
        rw [startsWithL_arrow_mid_false c u' v hu.2] at hc
        cases hc)]
      rw [ih fl (c :: acc) v hu.2 hv
        (by simp only [List.length_cons] at hfuel; omega)]
      rw [List.reverse_cons, List.append_assoc]
      rfl

theorem jsSplit_arrow (f t : String)
    (hf : f.data.all (fun c => c != '→') = true)
    (ht : t.data.all (fun c => c != '→') = true) :
    jsSplit (f ++ " → " ++ t) " → " = [f, t] := by
  unfold jsSplit
  have hdata : (f ++ " → " ++ t).data
      = f.data ++ ' ' :: '→' :: ' ' :: t.data := by
    rw [show (f ++ " → " ++ t).data
        = (f.data ++ [' ', '→', ' ']) ++ t.data from rfl,
      List.append_assoc]
    rfl
  rw [hdata]
  rw [show (" → " : String).data = [' ', '→', ' '] from rfl]
  rw [splitGo_arrow f.data _ [] t.data hf ht
    (by simp [List.length_append])]
  rfl

/-- No `'→'` character anywhere (so the `" → "` display separator of a
rename ChangeFile can be split back unambiguously). -/
def arrowFree (s : String) : Bool := s.data.all (fun c => c != '→')

/-- The workspace paths an operation reads or writes. -/
def touched (e : AiEditOp) : List String :=
  if opLower e = "rename" then
    [trimS (e.fromPath.getD ""), trimS (e.toPath.getD "")]
  else [trimS (e.path.getD "")]

/-- A plain write/delete/rename operation with nonempty (trimmed) paths;
rename paths must be `'→'`-free so the recorded display path can be split
back. -/
def SimpleOp (e : AiEditOp) : Prop :=
  ((opLower e = "write" ∨ opLower e = "delete") ∧
    trimS (e.path.getD "") ≠ "") ∨
  (opLower e = "rename" ∧ trimS (e.fromPath.getD "") ≠ "" ∧
    trimS (e.toPath.getD "") ≠ "" ∧
    arrowFree (trimS (e.fromPath.getD "")) = true ∧
    arrowFree (trimS (e.toPath.getD "")) = true)

instance (e : AiEditOp) : Decidable (SimpleOp e) := by
  unfold SimpleOp
  infer_instance

/-- The preconditions an operation needs against workspace state `S`: a
delete target exists; a rename source exists and its destination is fresh
(a rename overwrites an existing destination, which a revert could not
restore). -/
def PreOk (S : Ws) (e : AiEditOp) : Prop :=
  (opLower e = "delete" →
    (wsGet S (trimS (e.path.getD ""))).isSome = true) ∧
  (opLower e = "rename" →
    (wsGet S (trimS (e.fromPath.getD ""))).isSome = true ∧
    wsGet S (trimS (e.toPath.getD "")) = none)

instance (S : Ws) (e : AiEditOp) : Decidable (PreOk S e) := by
  unfold PreOk
  infer_instance

/-- The `ChangeFile` recorded for a simple operation against state `S`
(the `.ok` payload of `mkChangeFile`, total on write/delete/rename). -/
def recOf (S : Ws) (e : AiEditOp) : ChangeFile :=
  if opLower e = "write" then
    ⟨ChangeKind.write, trimS (e.path.getD ""),
      wsGet S (trimS (e.path.getD "")), some (e.content.getD "")⟩
  else if opLower e = "delete" then
    ⟨ChangeKind.delete, trimS (e.path.getD ""),
      wsGet S (trimS (e.path.getD "")), none⟩
  else
    ⟨ChangeKind.rename,
      trimS (e.fromPath.getD "") ++ " → " ++ trimS (e.toPath.getD ""),
      wsGet S (trimS (e.fromPath.getD "")),
      wsGet S (trimS (e.fromPath.getD ""))⟩

theorem ne_write_of_op {e : AiEditOp} {s : String} (h : opLower e = s)
    (hs : s ≠ "write") : ¬ (opLower e = "write") :=
  fun hc => hs (h ▸ hc)

theorem stepOf_write (S : Ws) (e : AiEditOp) (hop : opLower e = "write")
    (hp : trimS (e.path.getD "") ≠ "") :
    stepOf S e = .ok (wsWrite S (trimS (e.path.getD ""))
      (e.content.getD "")) := by
  unfold stepOf
  rw [if_pos hop, if_neg hp]

theorem stepOf_delete (S : Ws) (e : AiEditOp) (hop : opLower e = "delete")
    (hp : trimS (e.path.getD "") ≠ "") (v : String)
    (hv : wsGet S (trimS (e.path.getD "")) = some v) :
    stepOf S e = .ok (wsErase S (trimS (e.path.getD ""))) := by
  unfold stepOf
  rw [if_neg (ne_write_of_op hop (by decide)),
    if_neg (fun hc => by rw [hop] at hc; exact absurd hc (by decide)),
    if_pos hop, if_neg hp, hv]

theorem stepOf_rename (S : Ws) (e : AiEditOp) (hop : opLower e = "rename")
    (hf : trimS (e.fromPath.getD "") ≠ "")
    (ht : trimS (e.toPath.getD "") ≠ "") (v : String)
    (hv : wsGet S (trimS (e.fromPath.getD "")) = some v) :
    stepOf S e = .ok (wsWrite (wsErase S (trimS (e.fromPath.getD "")))
      (trimS (e.toPath.getD "")) v) := by
  unfold stepOf
  rw [if_neg (ne_write_of_op hop (by decide)),
    if_neg (fun hc => by rw [hop] at hc; exact absurd hc (by decide)),
    if_neg (fun hc => by rw [hop] at hc; exact absurd hc (by decide)),
    if_pos hop, if_neg (fun hc => hc.elim hf ht), hv]

theorem applyEdits_cons_ok (S S' : Ws) (e : AiEditOp) (rest : List AiEditOp)
    (h : stepOf S e = .ok S') :
    applyEdits S (e :: rest) = applyEdits S' rest := by
  show (match stepOf S e with
    | .error err => (S, some err)
    | .ok S'' => applyEdits S'' rest) = _
  rw [h]

theorem applyEdits_append_ok (l1 : List AiEditOp) :
    ∀ (S S1 : Ws) (l2 : List AiEditOp), applyEdits S l1 = (S1, none) →
    applyEdits S (l1 ++ l2) = applyEdits S1 l2 := by
  induction l1 with
  | nil =>
    intro S S1 l2 h
    injection h with h1 _
    rw [List.nil_append, h1]
  | cons e l1' ih =>
    intro S S1 l2 h
    rw [List.cons_append]
    cases hs : stepOf S e with
    | error err =>
      exfalso
      rw [show applyEdits S (e :: l1') = (S, some err) from by
          show (match stepOf S e with
            | .error err => (S, some err)
            | .ok S'' => applyEdits S'' l1') = _
          rw [hs]] at h
      injection h with _ h2
      cases h2
    | ok S'' =>
      rw [applyEdits_cons_ok S S'' e (l1' ++ l2) hs]
      rw [applyEdits_cons_ok S S'' e l1' hs] at h
      exact ih S'' S1 l2 h

theorem inverseOps_cons (f : ChangeFile) (fs : List ChangeFile) :
    inverseOps (f :: fs) = inverseOps fs ++ invOf f := by
  unfold inverseOps
  rw [List.reverse_cons, List.map_append, List.flatten_append]
  simp

theorem touched_write {e : AiEditOp} (hop : opLower e = "write") :
    touched e = [trimS (e.path.getD "")] := by
  unfold touched
  rw [if_neg (fun hc => by rw [hop] at hc; exact absurd hc (by decide))]

theorem touched_delete {e : AiEditOp} (hop : opLower e = "delete") :
    touched e = [trimS (e.path.getD "")] := by
  unfold touched
  rw [if_neg (fun hc => by rw [hop] at hc; exact absurd hc (by decide))]

theorem touched_rename {e : AiEditOp} (hop : opLower e = "rename") :
    touched e = [trimS (e.fromPath.getD ""), trimS (e.toPath.getD "")] := by
  unfold touched
  rw [if_pos hop]

theorem preOk_congr (S T : Ws) (e : AiEditOp)
    (h : ∀ q ∈ touched e, wsGet S q = wsGet T q) (hpre : PreOk S e) :
    PreOk T e := by
  constructor
  · intro hd
    rw [← h _ (by rw [touched_delete hd]; exact List.mem_singleton.mpr rfl)]
    exact hpre.1 hd
  · intro hr
    obtain ⟨h1, h2⟩ := hpre.2 hr
    constructor
    · rw [← h _ (by rw [touched_rename hr]; exact List.mem_cons_self _ _)]
      exact h1
    · rw [← h _ (by rw [touched_rename hr]; simp)]
      exact h2

theorem recOf_congr (S T : Ws) (e : AiEditOp) (hs : SimpleOp e)
    (h : ∀ q ∈ touched e, wsGet S q = wsGet T q) : recOf S e = recOf T e := by
  unfold recOf
  rcases hs with ⟨hop | hop, hp⟩ | ⟨hop, hf, ht, _, _⟩
  · rw [if_pos hop, if_pos hop,
      h _ (by rw [touched_write hop]; exact List.mem_singleton.mpr rfl)]
  · rw [if_neg (ne_write_of_op hop (by decide)),
      if_neg (ne_write_of_op hop (by decide)),
      if_pos hop, if_pos hop,
      h _ (by rw [touched_delete hop]; exact List.mem_singleton.mpr rfl)]
  · rw [if_neg (ne_write_of_op hop (by decide)),
      if_neg (ne_write_of_op hop (by decide)),
      if_neg (fun hc => by rw [hop] at hc; exact absurd hc (by decide)),
      if_neg (fun hc => by rw [hop] at hc; exact absurd hc (by decide)),
      h _ (by rw [touched_rename hop]; exact List.mem_cons_self _ _)]

theorem keyOf_simple (e : AiEditOp) (hs : SimpleOp e) :
    ∃ k, keyOf e = some k := by
  simp only [keyOf]
  rcases hs with ⟨hop | hop, hp⟩ | ⟨hop, hf, ht, _, _⟩
  · exact ⟨_, by rw [if_pos hop, if_neg hp]⟩
  · exact ⟨_, by
      rw [if_neg (ne_write_of_op hop (by decide)),
        if_neg (fun hc => by rw [hop] at hc; exact absurd hc (by decide)),
        if_pos hop, if_neg hp]⟩
  · exact ⟨_, by
      rw [if_neg (ne_write_of_op hop (by decide)),
        if_neg (fun hc => by rw [hop] at hc; exact absurd hc (by decide)),
        if_neg (fun hc => by rw [hop] at hc; exact absurd hc (by decide)),
        if_pos hop, if_neg (fun hc => hc.elim hf ht)]⟩

theorem mkChangeFile_simple (S : Ws) (e : AiEditOp) (hs : SimpleOp e) :
    mkChangeFile S e = .ok (recOf S e) := by
  simp only [mkChangeFile, recOf]
  rcases hs with ⟨hop | hop, hp⟩ | ⟨hop, hf, ht, _, _⟩
  · rw [if_pos hop, if_pos hop]
  · rw [if_neg (ne_write_of_op hop (by decide)),
      if_neg (ne_write_of_op hop (by decide)),
      if_neg (fun hc => by rw [hop] at hc; exact absurd hc (by decide)),
      if_pos hop, if_pos hop]
  · rw [if_neg (ne_write_of_op hop (by decide)),
      if_neg (ne_write_of_op hop (by decide)),
      if_neg (fun hc => by rw [hop] at hc; exact absurd hc (by decide)),
      if_neg (fun hc => by rw [hop] at hc; exact absurd hc (by decide)),
      if_neg (fun hc => by rw [hop] at hc; exact absurd hc (by decide))]

theorem buildFilesAux_simple (S : Ws) :
    ∀ (ops : List AiEditOp) (seen : List String),
    (∀ e ∈ ops, SimpleOp e) →
    (ops.filterMap keyOf).Nodup →
    (∀ k ∈ seen, k ∉ ops.filterMap keyOf) →
    buildFilesAux S ops seen = .ok (ops.map (recOf S)) := by
  intro ops
  induction ops with
  | nil => intro seen _ _ _; rfl
  | cons e rest ih =>
    intro seen hall hkeys hdisj
    have hsE : SimpleOp e := hall e (List.mem_cons_self _ _)
    obtain ⟨k, hk⟩ := keyOf_simple e hsE
    have hkey_cons : (e :: rest).filterMap keyOf
        = k :: rest.filterMap keyOf := by
      rw [List.filterMap_cons, hk]
    have hnc : seen.contains k = false := by
      cases hc : seen.contains k with
      | false => rfl
      | true =>
        exfalso
        apply hdisj k (List.elem_iff.mp hc)
        rw [hkey_cons]
        exact List.mem_cons_self _ _
    have hknotin : k ∉ rest.filterMap keyOf := by
      have := hkeys
      rw [hkey_cons] at this
      exact (List.nodup_cons.mp this).1
    simp only [buildFilesAux, hk]
    rw [if_neg (fun hc => Bool.false_ne_true (hnc ▸ hc))]
    rw [mkChangeFile_simple S e hsE]
    rw [ih (seen ++ [k]) (fun e' he' => hall e' (List.mem_cons_of_mem _ he'))
      (by
        have := hkeys
        rw [hkey_cons] at this
        exact (List.nodup_cons.mp this).2)
      (by
        intro k' hk'
        rcases List.mem_append.mp hk' with hk1 | hk2
        · intro hm
          apply hdisj k' hk1
          rw [hkey_cons]
          exact List.mem_cons_of_mem _ hm
        · rw [List.mem_singleton.mp hk2]
          exact hknotin)]
    rfl

theorem c2_core : ∀ (ops : List AiEditOp) (S : Ws),
    (∀ e ∈ ops, SimpleOp e ∧ PreOk S e) →
    ((ops.map touched).flatten).Nodup →
    ∃ S', applyEdits S ops = (S', none) ∧
      ∀ T, (∀ q, wsGet T q = wsGet S' q) →
        ∃ T', applyEdits T (inverseOps (ops.map (recOf S))) = (T', none) ∧
          ∀ q, wsGet T' q = wsGet S q := by
  intro ops
  induction ops with
  | nil =>
    intro S _ _
    exact ⟨S, rfl, fun T hT => ⟨T, rfl, hT⟩⟩
  | cons e rest ih =>
    intro S h hnd
    obtain ⟨hsE, hpE⟩ := h e (List.mem_cons_self _ _)
    have hrest : ∀ e' ∈ rest, SimpleOp e' ∧ PreOk S e' :=
      fun e' he' => h e' (List.mem_cons_of_mem _ he')
    rw [List.map_cons, List.flatten_cons] at hnd
    obtain ⟨-, hndrest, hdisj0⟩ := List.nodup_append.mp hnd
    have hsE' := hsE
    rcases hsE' with ⟨hop | hop, hp⟩ | ⟨hop, hf, ht, haf, hat⟩
    · -- write
      have hstep := stepOf_write S e hop hp
      have hloc : ∀ q, q ∉ touched e →
          wsGet (wsWrite S (trimS (e.path.getD "")) (e.content.getD "")) q
            = wsGet S q := by
        intro q hq
        rw [wsGet_wsWrite, if_neg (fun hc => hq (by
          rw [touched_write hop, hc]; exact List.mem_singleton.mpr rfl))]
      have hnotE : ∀ e' ∈ rest, ∀ q ∈ touched e', q ∉ touched e := by
        intro e' he' q hq hqe
        exact hdisj0 hqe (List.mem_flatten.mpr ⟨touched e',
          List.mem_map.mpr ⟨e', he', rfl⟩, hq⟩)
      have hrest1 : ∀ e' ∈ rest, SimpleOp e' ∧
          PreOk (wsWrite S (trimS (e.path.getD "")) (e.content.getD "")) e' := by
        intro e' he'
        refine ⟨(hrest e' he').1, preOk_congr S _ e' ?_ (hrest e' he').2⟩
        intro q hq
        exact (hloc q (hnotE e' he' q hq)).symm
      obtain ⟨S', happrest, hrev⟩ := ih _ hrest1 hndrest
      refine ⟨S', by rw [applyEdits_cons_ok S _ e rest hstep]; exact happrest,
        ?_⟩
      intro T hT
      have hmap : rest.map (recOf S)
          = rest.map (recOf (wsWrite S (trimS (e.path.getD ""))
              (e.content.getD ""))) := by
        apply List.map_congr_left
        intro e' he'
        apply recOf_congr S _ e' (hrest e' he').1
        intro q hq
        exact (hloc q (hnotE e' he' q hq)).symm
      rw [List.map_cons, inverseOps_cons, hmap]
      obtain ⟨T1, hT1app, hT1⟩ := hrev T hT
      rw [applyEdits_append_ok _ T T1 _ hT1app]
      have hrec : recOf S e = ⟨ChangeKind.write, trimS (e.path.getD ""),
          wsGet S (trimS (e.path.getD "")), some (e.content.getD "")⟩ := by
        unfold recOf
        rw [if_pos hop]
      rw [hrec]
      have htp : trimS ((some (trimS (e.path.getD ""))).getD "")
          = trimS (e.path.getD "") := trimS_idem _
      cases hb : wsGet S (trimS (e.path.getD "")) with
      | none =>
        rw [show invOf ⟨ChangeKind.write, trimS (e.path.getD ""), none,
            some (e.content.getD "")⟩
          = [{ op := some "delete",
               path := some (trimS (e.path.getD "")) }] from rfl]
        have hstep2 : stepOf T1
            { op := some "delete", path := some (trimS (e.path.getD "")) }
            = .ok (wsErase T1 (trimS ((some (trimS (e.path.getD ""))).getD ""))) := by
          apply stepOf_delete _ _ (by rfl) (by rw [htp]; exact hp)
            (e.content.getD "")
          rw [htp, hT1, wsGet_wsWrite, if_pos rfl]
        rw [applyEdits_cons_ok _ _ _ _ hstep2]
        refine ⟨_, rfl, ?_⟩
        intro q
        rw [htp, wsGet_wsErase]
        by_cases hq : q = trimS (e.path.getD "")
        · rw [if_pos hq, hq, hb]
        · rw [if_neg hq, hT1, hloc q (by
            rw [touched_write hop]
            exact fun hm => hq (List.mem_singleton.mp hm))]
      | some b =>
        rw [show invOf ⟨ChangeKind.write, trimS (e.path.getD ""), some b,
            some (e.content.getD "")⟩
          = [{ op := some "write",
               path := some (trimS (e.path.getD "")),
               content := some b }] from rfl]
        have hstep2 : stepOf T1
            { op := some "write", path := some (trimS (e.path.getD "")),
              content := some b }
            = .ok (wsWrite T1 (trimS ((some (trimS (e.path.getD ""))).getD "")) b) :=
          stepOf_write _ _ (by rfl) (by rw [htp]; exact hp)
        rw [applyEdits_cons_ok _ _ _ _ hstep2]
        refine ⟨_, rfl, ?_⟩
        intro q
        rw [htp, wsGet_wsWrite]
        by_cases hq : q = trimS (e.path.getD "")
        · rw [if_pos hq, hq, hb]
        · rw [if_neg hq, hT1, hloc q (by
            rw [touched_write hop]
            exact fun hm => hq (List.mem_singleton.mp hm))]
    · -- delete
      obtain ⟨v, hv⟩ := Option.isSome_iff_exists.mp (hpE.1 hop)
      have hstep := stepOf_delete S e hop hp v hv
      have hloc : ∀ q, q ∉ touched e →
          wsGet (wsErase S (trimS (e.path.getD ""))) q = wsGet S q := by
        intro q hq
        rw [wsGet_wsErase, if_neg (fun hc => hq (by
          rw [touched_delete hop, hc]; exact List.mem_singleton.mpr rfl))]
      have hnotE : ∀ e' ∈ rest, ∀ q ∈ touched e', q ∉ touched e := by
        intro e' he' q hq hqe
        exact hdisj0 hqe (List.mem_flatten.mpr ⟨touched e',
          List.mem_map.mpr ⟨e', he', rfl⟩, hq⟩)
      have hrest1 : ∀ e' ∈ rest, SimpleOp e' ∧
          PreOk (wsErase S (trimS (e.path.getD ""))) e' := by
        intro e' he'
        refine ⟨(hrest e' he').1, preOk_congr S _ e' ?_ (hrest e' he').2⟩
        intro q hq
        exact (hloc q (hnotE e' he' q hq)).symm
      obtain ⟨S', happrest, hrev⟩ := ih _ hrest1 hndrest
      refine ⟨S', by rw [applyEdits_cons_ok S _ e rest hstep]; exact happrest,
        ?_⟩
      intro T hT
      have hmap : rest.map (recOf S)
          = rest.map (recOf (wsErase S (trimS (e.path.getD "")))) := by
        apply List.map_congr_left
        intro e' he'
        apply recOf_congr S _ e' (hrest e' he').1
        intro q hq
        exact (hloc q (hnotE e' he' q hq)).symm
      rw [List.map_cons, inverseOps_cons, hmap]
      obtain ⟨T1, hT1app, hT1⟩ := hrev T hT
      rw [applyEdits_append_ok _ T T1 _ hT1app]
      have hrec : recOf S e = ⟨ChangeKind.delete, trimS (e.path.getD ""),
          some v, none⟩ := by
        unfold recOf
        rw [if_neg (ne_write_of_op hop (by decide)), if_pos hop, hv]
      rw [hrec]
      rw [show invOf ⟨ChangeKind.delete, trimS (e.path.getD ""), some v, none⟩
        = [{ op := some "write",
             path := some (trimS (e.path.getD "")),
             content := some v }] from rfl]
      have htp : trimS ((some (trimS (e.path.getD ""))).getD "")
          = trimS (e.path.getD "") := trimS_idem _
      have hstep2 : stepOf T1
          { op := some "write", path := some (trimS (e.path.getD "")),
            content := some v }
          = .ok (wsWrite T1 (trimS ((some (trimS (e.path.getD ""))).getD "")) v) :=
        stepOf_write _ _ (by rfl) (by rw [htp]; exact hp)
      rw [applyEdits_cons_ok _ _ _ _ hstep2]
      refine ⟨_, rfl, ?_⟩
      intro q
      rw [htp, wsGet_wsWrite]
      by_cases hq : q = trimS (e.path.getD "")
      · rw [if_pos hq, hq, hv]
      · rw [if_neg hq, hT1, hloc q (by
          rw [touched_delete hop]
          exact fun hm => hq (List.mem_singleton.mp hm))]
    · -- rename
      obtain ⟨hvs, hfresh⟩ := hpE.2 hop
      obtain ⟨v, hv⟩ := Option.isSome_iff_exists.mp hvs
      have hft : trimS (e.fromPath.getD "") ≠ trimS (e.toPath.getD "") := by
        intro hc
        rw [hc] at hv
        rw [hv] at hfresh
        cases hfresh
      have hstep := stepOf_rename S e hop hf ht v hv
      have hloc : ∀ q, q ∉ touched e →
          wsGet (wsWrite (wsErase S (trimS (e.fromPath.getD "")))
            (trimS (e.toPath.getD "")) v) q = wsGet S q := by
        intro q hq
        rw [touched_rename hop] at hq
        rw [wsGet_wsWrite, if_neg (fun hc => hq (by rw [hc]; simp)),
          wsGet_wsErase, if_neg (fun hc => hq (by rw [hc]; simp))]
      have hnotE : ∀ e' ∈ rest, ∀ q ∈ touched e', q ∉ touched e := by
        intro e' he' q hq hqe
        exact hdisj0 hqe (List.mem_flatten.mpr ⟨touched e',
          List.mem_map.mpr ⟨e', he', rfl⟩, hq⟩)
      have hrest1 : ∀ e' ∈ rest, SimpleOp e' ∧
          PreOk (wsWrite (wsErase S (trimS (e.fromPath.getD "")))
            (trimS (e.toPath.getD "")) v) e' := by
        intro e' he'
        refine ⟨(hrest e' he').1, preOk_congr S _ e' ?_ (hrest e' he').2⟩
        intro q hq
        exact (hloc q (hnotE e' he' q hq)).symm
      obtain ⟨S', happrest, hrev⟩ := ih _ hrest1 hndrest
      refine ⟨S', by rw [applyEdits_cons_ok S _ e rest hstep]; exact happrest,
        ?_⟩
      intro T hT
      have hmap : rest.map (recOf S)
          = rest.map (recOf (wsWrite (wsErase S (trimS (e.fromPath.getD "")))
              (trimS (e.toPath.getD "")) v)) := by
        apply List.map_congr_left
        intro e' he'
        apply recOf_congr S _ e' (hrest e' he').1
        intro q hq
        exact (hloc q (hnotE e' he' q hq)).symm
      rw [List.map_cons, inverseOps_cons, hmap]
      obtain ⟨T1, hT1app, hT1⟩ := hrev T hT
      rw [applyEdits_append_ok _ T T1 _ hT1app]
      have hrec : recOf S e = ⟨ChangeKind.rename,
          trimS (e.fromPath.getD "") ++ " → " ++ trimS (e.toPath.getD ""),
          some v, some v⟩ := by
        unfold recOf
        rw [if_neg (ne_write_of_op hop (by decide)),
          if_neg (fun hc => by rw [hop] at hc; exact absurd hc (by decide)),
          hv]
      rw [hrec]
      have hinv : invOf ⟨ChangeKind.rename,
          trimS (e.fromPath.getD "") ++ " → " ++ trimS (e.toPath.getD ""),
          some v, some v⟩
          = [{ op := some "rename",
               fromPath := some (trimS (e.toPath.getD "")),
               toPath := some (trimS (e.fromPath.getD "")) }] := by
        unfold invOf
        rw [show (⟨ChangeKind.rename,
          trimS (e.fromPath.getD "") ++ " → " ++ trimS (e.toPath.getD ""),
          some v, some v⟩ : ChangeFile).path
          = trimS (e.fromPath.getD "") ++ " → " ++ trimS (e.toPath.getD "")
          from rfl]
        rw [jsSplit_arrow _ _ haf hat]
      rw [hinv]
      have htf : trimS ((some (trimS (e.fromPath.getD ""))).getD "")
          = trimS (e.fromPath.getD "") := trimS_idem _
      have htt : trimS ((some (trimS (e.toPath.getD ""))).getD "")
          = trimS (e.toPath.getD "") := trimS_idem _
      have hstep2 : stepOf T1
          { op := some "rename", fromPath := some (trimS (e.toPath.getD "")),
            toPath := some (trimS (e.fromPath.getD "")) }
          = .ok (wsWrite
              (wsErase T1 (trimS ((some (trimS (e.toPath.getD ""))).getD "")))
              (trimS ((some (trimS (e.fromPath.getD ""))).getD "")) v) := by
        apply stepOf_rename _ _ (by rfl) (by rw [htt]; exact ht)
          (by rw [htf]; exact hf)
        rw [htt, hT1, wsGet_wsWrite, if_pos rfl]
      rw [applyEdits_cons_ok _ _ _ _ hstep2]
      refine ⟨_, rfl, ?_⟩
      intro q
      rw [htf, htt, wsGet_wsWrite]
      by_cases hqf : q = trimS (e.fromPath.getD "")
      · rw [if_pos hqf, hqf, hv]
      · rw [if_neg hqf, wsGet_wsErase]
        by_cases hqt : q = trimS (e.toPath.getD "")
        · rw [if_pos hqt, hqt, hfresh]
        · rw [if_neg hqt, hT1, hloc q (by
            rw [touched_rename hop]
            intro hm
            rcases List.mem_cons.mp hm with hm1 | hm2
            · exact hqf hm1
            · exact hqt (List.mem_singleton.mp hm2))]

/-- Modelled from the claim: a two-op edit list whose second op writes the
rename's destination — build-time `before` reads do not see the rename's
effect. -/
def c2ops : List AiEditOp :=
  [{ op := some "rename", fromPath := some "a.txt", toPath := some "b.txt" },
   { op := some "write", path := some "b.txt", content := some "x" }]

/-- The ChangeSet `buildChangeSet` produces for `c2ops` against
`[("a.txt", "hello")]`: the write's `before` is `none` (at build time
`b.txt` does not exist on disk yet). -/
def c2cs : ChangeSet :=
  { edits := c2ops,
    files := [⟨ChangeKind.rename, "a.txt → b.txt", some "hello",
                some "hello"⟩,
              ⟨ChangeKind.write, "b.txt", none, some "x"⟩],
    stats := (2, 1, 1),
    applied := false }

/-- C2 counterexample: for the ChangeSet built from
`[rename a.txt → b.txt, write b.txt "x"]` over `S = [("a.txt", "hello")]`,
applying succeeds but rejecting all FAILS: the write's recorded `before` is
`null` (build-time reads all look at the pre-apply disk, where `b.txt` does
not exist), so its inverse is a delete; after that delete the rename's
inverse finds no `b.txt` and errors, the revert aborts with
"rename failed: b.txt", the workspace is left empty (≠ S) and the ChangeSet
survives.  The claim as stated — revert restores `S` for every
write/delete/rename ChangeSet consistent with the recorded befores — is
false. -/
theorem c2_counterexample :
    buildChangeSet c2ops [("a.txt", "hello")] = .ok c2cs ∧
    applyEdits [("a.txt", "hello")] c2ops = ([("b.txt", "x")], none) ∧
    rejectAllChanges { c2cs with applied := true } [("b.txt", "x")]
      = (some { c2cs with applied := true }, [],
         some "rename failed: b.txt") ∧
    wsSame [] [("a.txt", "hello")] = false :=
  ⟨rfl, rfl, rfl, rfl⟩

/-- C2 amended: revert inverts apply for a ChangeSet built from a list of
plain write/delete/rename operations (nonempty trimmed paths, `'→'`-free
rename paths) whose touched paths are pairwise distinct and whose dedup keys
are pairwise distinct, when every delete target exists in `S`, every rename
source exists and every rename destination is fresh: applying the
ChangeSet's edits to `S` succeeds, and `rejectAllChanges` on the applied set
runs the per-file inverse operations in reverse file order
(`Write(before=null)` → `Delete`, `Write(before=b)` → `Write b`,
`Delete(before=b)` → `Write b`, `Rename(from,to)` → `Rename(to,from)`),
succeeds, clears the ChangeSet and restores a workspace pointwise equal to
`S`. -/
theorem rejectAllChanges_applied (cs : ChangeSet) (ws ws' : Ws)
    (hap : cs.applied = true)
    (h : applyEdits ws (inverseOps cs.files) = (ws', none)) :
    rejectAllChanges cs ws = (none, ws', none) := by
  unfold rejectAllChanges
  rw [hap]
  rw [if_neg (show ¬ ((!true) = true) by simp)]
  rw [h]

theorem c2_revert_inverts_apply (ops : List AiEditOp) (S : Ws)
    (cs : ChangeSet)
    (hops : ∀ e ∈ ops, SimpleOp e ∧ PreOk S e)
    (hnd : ((ops.map touched).flatten).Nodup)
    (hkeys : (ops.filterMap keyOf).Nodup)
    (hcs : buildChangeSet ops S = .ok cs) :
    ∃ S', applyEdits S cs.edits = (S', none) ∧
      ∃ S'', rejectAllChanges { cs with applied := true } S'
          = (none, S'', none) ∧
        wsSame S'' S = true := by
  have hbuild := buildFilesAux_simple S ops [] (fun e he => (hops e he).1)
    hkeys (fun k hk => absurd hk (List.not_mem_nil k))
  unfold buildChangeSet at hcs
  rw [hbuild] at hcs
  injection hcs with hcs
  subst hcs
  obtain ⟨S', happ, hrev⟩ := c2_core ops S hops hnd
  obtain ⟨S'', hrevapp, hS''⟩ := hrev S' (fun q => rfl)
  exact ⟨S', happ, S'',
    rejectAllChanges_applied _ S' S'' rfl hrevapp,
    wsSame_of_forall _ _ hS''⟩

/-- Modelled from the claim: a three-op list exercising all three inverse
shapes (overwrite, rename, delete). -/
def c2wops : List AiEditOp :=
  [{ op := some "write", path := some "a.txt", content := some "new" },
   { op := some "rename", fromPath := some "b.txt", toPath := some "c.txt" },
   { op := some "delete", path := some "d.txt" }]

/-- The witness workspace state. -/
def c2wS : Ws := [("a.txt", "old"), ("b.txt", "B"), ("d.txt", "D")]

/-- The ChangeSet built from `c2wops` against `c2wS`. -/
def c2wcs : ChangeSet :=
  { edits := c2wops,
    files := [⟨ChangeKind.write, "a.txt", some "old", some "new"⟩,
              ⟨ChangeKind.rename, "b.txt → c.txt", some "B", some "B"⟩,
              ⟨ChangeKind.delete, "d.txt", some "D", none⟩],
    stats := (3, 2, 2),
    applied := false }

/-- C2 witness: the amended theorem applied at a concrete three-op
ChangeSet (a write with prior content, a rename and a delete). -/
theorem c2_witness :
    ∃ S', applyEdits c2wS c2wcs.edits = (S', none) ∧
      ∃ S'', rejectAllChanges { c2wcs with applied := true } S'
          = (none, S'', none) ∧
        wsSame S'' c2wS = true :=
  c2_revert_inverts_apply c2wops c2wS c2wcs
    (by decide) (by decide) (by decide) (by rfl)

/-! ## C3: path sanitization invariant -/

/-- Whether some `/`-separated segment of `q` is the traversal segment
`..`. -/
def hasDotDotSeg (q : String) : Bool :=
  (splitCh '/' q.data).any (fun seg => seg == ['.', '.'])

/-- The claim's invariant for one path: not absolute (no leading slash, no
drive prefix), slash-normalized (no backslash), and free of `..` traversal
segments. -/
def safePath (q : String) : Bool :=
  !(looksAbsoluteL q.data) && q.data.all (fun c => c != '\\') &&
    !(hasDotDotSeg q)

/-- The amended per-field invariant: safe, or the collapsed basename is
itself `..`, or the input collapsed to a run of slashes. -/
def fieldOk (q : String) : Bool :=
  safePath q || q == ".." || (q != "" && q.data.all (fun c => c == '/'))

def optOk : Option String → Bool
  | none => true
  | some q => fieldOk q

/-- The operative fields of a normalized edit: `from`/`to` of a rename,
`path` of anything else. -/
def edOk (e : AiEditOp) : Bool :=
  if opLower e == "rename" then optOk e.fromPath && optOk e.toPath
  else optOk e.path

theorem replSlashC_ne_backslash (c : Char) : (replSlashC c != '\\') = true := by
  unfold replSlashC
  split
  · decide
  · rename_i h
    simpa [bne_iff_ne] using h

theorem map_replSlashC_no_backslash (l : Chars) :
    (l.map replSlashC).all (fun c => c != '\\') = true := by
  simp only [List.all_map, List.all_eq_true, Function.comp]
  intro c _
  exact replSlashC_ne_backslash c

theorem map_replSlashC_id (l : Chars) (h : l.all (fun c => c != '\\') = true) :
    l.map replSlashC = l := by
  induction l with
  | nil => rfl
  | cons c rest ih =>
    simp only [List.all_cons, Bool.and_eq_true] at h
    simp only [List.map_cons]
    rw [ih h.2]
    congr 1
    unfold replSlashC
    rw [if_neg (by simpa [bne_iff_ne] using h.1)]

theorem dropDotSlash_all (p : Char → Bool) :
    ∀ l : Chars, l.all p = true → (dropDotSlash l).all p = true := by
  intro l h
  induction l using dropDotSlash.induct with
  | case1 rest ih =>
    simp only [dropDotSlash]
    simp only [List.all_cons, Bool.and_eq_true] at h
    exact ih h.2.2
  | case2 l h2 =>
    have he : dropDotSlash l = l := by
      unfold dropDotSlash
      split
      · rename_i rest
        exact absurd rfl (h2 rest)
      · rfl
    rw [he]; exact h

theorem splitCh_ne_nil (sep : Char) : ∀ l : Chars, splitCh sep l ≠ [] := by
  intro l
  cases l with
  | nil => simp [splitCh]
  | cons c rest =>
    unfold splitCh
    split
    · simp
    · cases splitCh sep rest <;> simp

theorem splitCh_mem_all (sep : Char) (p : Char → Bool) :
    ∀ l : Chars, l.all p = true → ∀ seg ∈ splitCh sep l, seg.all p = true := by
  intro l
  induction l with
  | nil =>
    intro _ seg hseg
    simp only [splitCh, List.mem_singleton] at hseg
    subst hseg; rfl
  | cons c rest ih =>
    intro h seg hseg
    simp only [List.all_cons, Bool.and_eq_true] at h
    unfold splitCh at hseg
    split at hseg
    · cases hseg with
      | head => rfl
      | tail _ hm => exact ih h.2 seg hm
    · cases hs : splitCh sep rest with
      | nil => exact absurd hs (splitCh_ne_nil sep rest)
      | cons s' ls' =>
        rw [hs] at hseg
        cases hseg with
        | head =>
          simp only [List.all_cons, Bool.and_eq_true]
          exact ⟨h.1, ih h.2 s' (hs ▸ List.mem_cons_self s' ls')⟩
        | tail _ hm => exact ih h.2 seg (hs ▸ List.mem_cons_of_mem _ hm)

theorem splitCh_mem_no_sep (sep : Char) :
    ∀ l : Chars, ∀ seg ∈ splitCh sep l, seg.all (fun c => c != sep) = true := by
  intro l
  induction l with
  | nil =>
    intro seg hseg
    simp only [splitCh, List.mem_singleton] at hseg
    subst hseg; rfl
  | cons c rest ih =>
    intro seg hseg
    unfold splitCh at hseg
    split at hseg
    · cases hseg with
      | head => rfl
      | tail _ hm => exact ih seg hm
    · rename_i hcs
      cases hs : splitCh sep rest with
      | nil => exact absurd hs (splitCh_ne_nil sep rest)
      | cons s' ls' =>
        rw [hs] at hseg
        cases hseg with
        | head =>
          simp only [List.all_cons, Bool.and_eq_true]
          exact ⟨by simpa [bne_iff_ne] using hcs,
            ih s' (hs ▸ List.mem_cons_self s' ls')⟩
        | tail _ hm => exact ih seg (hs ▸ List.mem_cons_of_mem _ hm)

theorem splitCh_head_prefix (sep : Char) :
    ∀ (l s : Chars) (ls : List Chars),
    splitCh sep l = s :: ls → startsWithL s l = true := by
  intro l
  induction l with
  | nil =>
    intro s ls h
    simp only [splitCh, List.cons.injEq] at h
    rw [← h.1]; rfl
  | cons c rest ih =>
    intro s ls h
    unfold splitCh at h
    split at h
    · injection h with h1 h2
      rw [← h1]; rfl
    · cases hs : splitCh sep rest with
      | nil => exact absurd hs (splitCh_ne_nil sep rest)
      | cons s' ls' =>
        rw [hs] at h
        injection h with h1 h2
        rw [← h1]
        simp only [startsWithL, beq_self_eq_true, Bool.true_and]
        exact ih s' ls' hs

theorem splitCh_filter_nil (sep : Char) :
    ∀ l : Chars, (splitCh sep l).filter (fun seg => seg ≠ []) = [] →
    l.all (fun c => c == sep) = true := by
  intro l
  induction l with
  | nil => intro _; rfl
  | cons c rest ih =>
    intro h
    unfold splitCh at h
    split at h
    · rename_i hc
      subst hc
      simp only [List.all_cons, beq_self_eq_true, Bool.true_and]
      apply ih
      simpa using h
    · cases hs : splitCh sep rest with
      | nil => exact absurd hs (splitCh_ne_nil sep rest)
      | cons s' ls' =>
        rw [hs] at h
        simp only [List.filter_cons] at h
        split at h
        · cases h
        · rename_i hcs
          simp at hcs

theorem splitCh_single (sep : Char) :
    ∀ l : Chars, l.all (fun c => c != sep) = true → splitCh sep l = [l] := by
  intro l
  induction l with
  | nil => intro _; rfl
  | cons c rest ih =>
    intro h
    simp only [List.all_cons, Bool.and_eq_true] at h
    unfold splitCh
    rw [if_neg (by simpa [bne_iff_ne] using h.1), ih h.2]

theorem looksAbsoluteL_false_of_no_slash (s : Chars)
    (h : s.all (fun c => c != '/') = true) : looksAbsoluteL s = false := by
  unfold looksAbsoluteL
  split
  · simp at h
  · simp at h
  · rfl

theorem stripLeadSlash_all (p : Char → Bool) (l : Chars)
    (h : l.all p = true) : (stripLeadSlash l).all p = true := by
  unfold stripLeadSlash
  split
  · simp only [List.all_cons, Bool.and_eq_true] at h
    exact h.2
  · exact h

theorem stripLeadSlash_of_no_slash (s : Chars)
    (h : s.all (fun c => c != '/') = true) : stripLeadSlash s = s := by
  unfold stripLeadSlash
  split
  · simp at h
  · rfl

theorem stripLeadSlash_of_not_abs (s : Chars)
    (h : looksAbsoluteL s = false) : stripLeadSlash s = s := by
  unfold stripLeadSlash
  split
  · simp [looksAbsoluteL] at h
  · rfl

theorem splitCh_no_dotdot :
    ∀ l : Chars, occursSub ['.', '.'] l = false →
    ∀ seg ∈ splitCh '/' l, seg ≠ ['.', '.'] := by
  intro l
  induction l with
  | nil =>
    intro _ seg hseg
    simp only [splitCh, List.mem_singleton] at hseg
    subst hseg; simp
  | cons c rest ih =>
    intro h seg hseg
    simp only [occursSub, Bool.or_eq_false_iff] at h
    obtain ⟨hst, hrest⟩ := h
    unfold splitCh at hseg
    split at hseg
    · cases hseg with
      | head => simp
      | tail _ hm => exact ih hrest seg hm
    · rename_i hcs
      cases hs : splitCh '/' rest with
      | nil => exact absurd hs (splitCh_ne_nil '/' rest)
      | cons s' ls' =>
        rw [hs] at hseg
        cases hseg with
        | head =>
          intro hdd
          injection hdd with hd1 hd2
          subst hd1
          have hpre := splitCh_head_prefix '/' rest s' ls' hs
          rw [hd2] at hpre
          rw [show startsWithL ['.', '.'] ('.' :: rest) = startsWithL ['.'] rest
            from by simp [startsWithL]] at hst
          rw [hpre] at hst
          cases hst
        | tail _ hm => exact ih hrest seg (hs ▸ List.mem_cons_of_mem _ hm)

/-- A field value that is safe, the `..` basename, or a slash run, packaged
for reuse: `fieldOk` holds of `String.mk (stripLeadSlash (collapseStep p2))`
whenever `p2` is backslash-free. -/
theorem fieldOk_of_collapse (p2 : Chars)
    (hbs2 : p2.all (fun c => c != '\\') = true) :
    fieldOk (String.mk (stripLeadSlash (collapseStep p2))) = true := by
  unfold collapseStep
  by_cases hcol : (looksAbsoluteL p2 || occursSub ['.', '.'] p2) = true
  · rw [if_pos hcol]
    unfold basename
    have hnorm : (String.mk p2).data.map replSlashC = p2 :=
      map_replSlashC_id p2 hbs2
    rw [hnorm]
    cases hlast : ((splitCh '/' p2).filter (fun seg => seg ≠ [])).getLast? with
    | none =>
      have hnil := List.getLast?_eq_none_iff.mp hlast
      have hall : p2.all (fun c => c == '/') = true :=
        splitCh_filter_nil '/' p2 hnil
      -- p2 is a nonempty run of slashes (empty would not collapse)
      cases hp2shape : p2 with
      | nil =>
        exfalso
        rw [hp2shape] at hcol
        simp [looksAbsoluteL, occursSub, startsWithL] at hcol
      | cons c t =>
        rw [hp2shape] at hall
        simp only [List.all_cons, Bool.and_eq_true, beq_iff_eq] at hall
        obtain ⟨hc, ht⟩ := hall
        subst hc
        simp only [stripLeadSlash]
        cases ht' : t with
        | nil => decide
        | cons c2 t2 =>
          rw [ht'] at ht
          unfold fieldOk
          simp only [Bool.or_eq_true, Bool.and_eq_true]
          refine Or.inr ⟨?_, ?_⟩
          · simp only [bne_iff_ne, ne_eq, decide_eq_true_eq]
            intro hfalse
            have := congrArg String.data hfalse
            simp at this
          · exact ht
    | some s =>
      have hsmem := List.mem_of_mem_getLast? hlast
      have hsfil := List.of_mem_filter hsmem
      have hsne : s ≠ [] := by simpa using hsfil
      have hsmem2 : s ∈ splitCh '/' p2 := List.mem_of_mem_filter hsmem
      have hsnos : s.all (fun c => c != '/') = true :=
        splitCh_mem_no_sep '/' p2 s hsmem2
      have hsbs : s.all (fun c => c != '\\') = true :=
        splitCh_mem_all '/' _ p2 hbs2 s hsmem2
      have hdata : (String.mk s).data = s := rfl
      rw [show stripLeadSlash (String.mk s).data = s from by
        rw [hdata]; exact stripLeadSlash_of_no_slash s hsnos]
      by_cases hdd : s = ['.', '.']
      · subst hdd
        decide
      · unfold fieldOk safePath
        simp only [Bool.or_eq_true, Bool.and_eq_true, Bool.not_eq_true']
        refine Or.inl (Or.inl ⟨⟨?_, ?_⟩, ?_⟩)
        · exact looksAbsoluteL_false_of_no_slash s hsnos
        · exact hsbs
        · unfold hasDotDotSeg
          rw [splitCh_single '/' s hsnos]
          simp only [List.any_cons, List.any_nil, Bool.or_false]
          simpa [beq_iff_eq] using hdd
  · rw [if_neg hcol]
    simp only [Bool.or_eq_true, not_or, Bool.not_eq_true] at hcol
    obtain ⟨habs, hocc⟩ := hcol
    rw [stripLeadSlash_of_not_abs p2 habs]
    unfold fieldOk safePath
    simp only [Bool.or_eq_true, Bool.and_eq_true, Bool.not_eq_true']
    refine Or.inl (Or.inl ⟨⟨?_, ?_⟩, ?_⟩)
    · exact habs
    · exact hbs2
    · unfold hasDotDotSeg
      rw [List.any_eq_false]
      intro seg hseg
      simp only [Bool.not_eq_true]
      exact beq_eq_false_iff_ne.mpr (splitCh_no_dotdot p2 hocc seg hseg)

/-- Core C3 lemma: `sanitizePath` always yields a field satisfying the
amended invariant. -/
theorem fieldOk_sanitizePath (raw : String) (root : Option String) :
    fieldOk (sanitizePath raw root) = true := by
  unfold sanitizePath
  split
  · rename_i h
    rw [h]
    decide
  · apply fieldOk_of_collapse
    unfold rootStrip
    split
    · apply stripLeadSlash_all
      have hbs1 : (dropDotSlash ((trimL raw.data).map replSlashC)).all
          (fun c => c != '\\') = true :=
        dropDotSlash_all _ _ (map_replSlashC_no_backslash _)
      simp only [List.all_eq_true] at hbs1 ⊢
      intro x hx
      exact hbs1 x (List.mem_of_mem_drop hx)
    · exact dropDotSlash_all _ _ (map_replSlashC_no_backslash _)

/-- Every edit that leaves `sanitizeOne` satisfies the per-field
invariant on its operative fields. -/
theorem edOk_sanitizeOne (root : Option String) (e : AiEditOp) :
    edOk (sanitizeOne root e).1 = true := by
  by_cases hre : opLower e = "rename"
  · have hre' : toLowerS (e.op.getD "") = "rename" := hre
    cases hf : e.fromPath <;> cases ht : e.toPath <;>
      simp [sanitizeOne, edOk, opLower, optOk, hre', hf, ht, fieldOk_sanitizePath]
  · have hre' : ¬ toLowerS (e.op.getD "") = "rename" := hre
    cases hp : e.path <;>
      simp [sanitizeOne, edOk, opLower, optOk, hre', hp, fieldOk_sanitizePath]

/-- C3 counterexample: the input path `..` survives `normalizeAiEdits`
verbatim (the basename of `..` is `..` itself), so the output contains a
traversal segment — and `didSanitize` is not even set.  The claim's
invariant is false. -/
theorem c3_counterexample :
    normalizeAiEdits [{ op := some "write", path := some ".." }] none =
      ([{ op := some "write", path := some ".." }], false) ∧
    hasDotDotSeg ".." = true := by
  exact ⟨rfl, by decide⟩

/-- One normalization step preserves the `edOk` invariant of the
accumulator. -/
theorem normalizeStep_all (root : Option String) (acc : List AiEditOp × Bool)
    (e : AiEditOp) (hacc : acc.1.all edOk = true) :
    (normalizeStep root acc e).1.all edOk = true := by
  unfold normalizeStep
  split
  · simp only [List.all_append, Bool.and_eq_true]
    refine ⟨hacc, ?_⟩
    simp only [List.all_eq_true]
    intro x hx
    rw [List.mem_map] at hx
    obtain ⟨p, hp, hpx⟩ := hx
    rw [List.mem_map] at hp
    obtain ⟨e0, _, he0⟩ := hp
    rw [← hpx, ← he0]
    exact edOk_sanitizeOne root e0
  · simp only [List.all_append, Bool.and_eq_true]
    exact ⟨hacc, by simpa using edOk_sanitizeOne root e⟩

/-- C3 amended: every operative path field in the output of the Edit
Normalizer (`path` of a write/patch/delete/run, `from`/`to` of a rename) is
slash-normalized and either (a) workspace-relative and traversal-free, or
(b) exactly the traversal basename `..` (when the input's last nonempty
segment is `..`), or (c) a nonempty run of slashes (when the input collapses
to slashes only).  A rename's stray `path` field and a non-rename's stray
`from`/`to` fields are passed through unsanitized. -/
theorem c3_sanitize_invariant (edits : List AiEditOp) (root : Option String) :
    ((normalizeAiEdits edits root).1).all edOk = true := by
  unfold normalizeAiEdits
  suffices h : ∀ (acc : List AiEditOp × Bool), acc.1.all edOk = true →
      ((edits.foldl (normalizeStep root) acc).1).all edOk = true by
    exact h ([], false) rfl
  induction edits with
  | nil => intro acc hacc; exact hacc
  | cons e rest ih =>
    intro acc hacc
    rw [List.foldl_cons]
    exact ih _ (normalizeStep_all root acc e hacc)

/-! ## C4: ChangeSet builder deduplication -/

/-- Keep only the first operation for every dedup key (keyless operations
pass through; the builder skips them anyway). -/
def dedupAux (seen : List String) : List AiEditOp → List AiEditOp
  | [] => []
  | e :: rest =>
    match keyOf e with
    | none => e :: dedupAux seen rest
    | some k =>
      if seen.contains k then dedupAux seen rest
      else e :: dedupAux (seen ++ [k]) rest

def dedupFirst (edits : List AiEditOp) : List AiEditOp := dedupAux [] edits

theorem buildFilesAux_dedup (S : Ws) :
    ∀ (edits : List AiEditOp) (seen : List String),
    buildFilesAux S edits seen = buildFilesAux S (dedupAux seen edits) seen := by
  intro edits
  induction edits with
  | nil => intro seen; rfl
  | cons e rest ih =>
    intro seen
    cases hk : keyOf e with
    | none =>
      simp only [buildFilesAux, dedupAux, hk]
      exact ih seen
    | some k =>
      by_cases hc : seen.contains k
      · simp only [buildFilesAux, dedupAux, hk, hc, if_true]
        exact ih seen
      · simp only [buildFilesAux, dedupAux, hk, hc, if_false, Bool.false_eq_true]
        cases hmk : mkChangeFile S e with
        | error err => rfl
        | ok f => rw [ih (seen ++ [k])]

theorem dedupAux_keys_nodup :
    ∀ (edits : List AiEditOp) (seen : List String),
    ((dedupAux seen edits).filterMap keyOf).Nodup ∧
    ∀ k ∈ (dedupAux seen edits).filterMap keyOf, k ∉ seen := by
  intro edits
  induction edits with
  | nil => intro seen; exact ⟨List.nodup_nil, by intro k h; cases h⟩
  | cons e rest ih =>
    intro seen
    cases hk : keyOf e with
    | none =>
      simp only [dedupAux, hk, List.filterMap_cons, hk]
      exact ih seen
    | some k =>
      by_cases hc : seen.contains k
      · simp only [dedupAux, hk, hc, if_true]
        exact ih seen
      · simp only [dedupAux, hk, hc, if_false, Bool.false_eq_true,
          List.filterMap_cons]
        obtain ⟨ihn, ihs⟩ := ih (seen ++ [k])
        refine ⟨List.nodup_cons.mpr ⟨fun hmem => ?_, ihn⟩, ?_⟩
        · exact ihs k hmem (by simp)
        · intro k' hk' hseen
          cases hk' with
          | head => exact hc (List.elem_iff.mpr hseen)
          | tail _ hmem => exact ihs k' hmem (by simp [hseen])

/-- C4 counterexample: two write operations on the same path collapse to the
*first* one — the built ChangeFile carries content `"a"`, not the last
operation's `"b"`; `buildChangeSet` skips any operation whose `(opKind,
path)` key was already seen. -/
theorem c4_counterexample :
    (buildChangeSet
        [{ op := some "write", path := some "f.ts", content := some "a" },
         { op := some "write", path := some "f.ts", content := some "b" }]
        []).map ChangeSet.files =
      .ok [⟨ChangeKind.write, "f.ts", none, some "a"⟩] ∧
    some "a" ≠ some "b" := by
  exact ⟨rfl, by decide⟩

/-- C4 amended: `buildChangeSet` deduplicates by `(opKind, path)` keeping the
*first* operation for each key: the built files are exactly those built from
the edit list with every later duplicate dropped, and the deduplicated list
has pairwise-distinct keys. -/
theorem c4_dedup_first (edits : List AiEditOp) (S : Ws) :
    (buildChangeSet edits S).map ChangeSet.files =
      (buildChangeSet (dedupFirst edits) S).map ChangeSet.files ∧
    ((dedupFirst edits).filterMap keyOf).Nodup := by
  constructor
  · unfold buildChangeSet dedupFirst
    rw [← buildFilesAux_dedup S edits []]
    cases buildFilesAux S edits [] <;> rfl
  · exact (dedupAux_keys_nodup edits []).1

/-! ## C8: multi-file splitting of a two-block git diff -/

/-- Modelled from the spec: a diff blob with two `diff --git ` blocks, one
with a hunk and one marked `deleted file mode`, but whose blocks carry no
`---`/`+++` header lines. -/
def c8badBlob : String :=
  "diff --git a/x.ts b/x.ts\n@@ -1 +1 @@\n-a\n+b\ndiff --git a/y.ts b/y.ts\ndeleted file mode 100644"

/-- Modelled from the spec: the hunk-bearing block of the canonical
two-block git diff, over an arbitrary path `X`. -/
def c8block1 (X : String) : List String :=
  ["diff --git a/" ++ X ++ " b/" ++ X,
   "--- a/" ++ X,
   "+++ b/" ++ X,
   "@@ -1 +1 @@",
   "-old",
   "+new"]

/-- Modelled from the spec: the `deleted file mode` block of the canonical
two-block git diff, over an arbitrary path `Y`. -/
def c8block2 (Y : String) : List String :=
  ["diff --git a/" ++ Y ++ " b/" ++ Y,
   "deleted file mode 100644",
   "--- a/" ++ Y,
   "+++ /dev/null"]

/-- Modelled from the spec: the canonical two-block git diff blob, as a
line list. -/
def c8lines (X Y : String) : List String := c8block1 X ++ c8block2 Y

/-- A line that survives `splitLines` intact: no LF and no CR. -/
def okLine (s : String) : Bool := s.data.all (fun c => c != '\n' && c != '\r')

theorem no_ws_char (c : Char) (h : (!isWsJS c) = true) :
    (c != '\n' && c != '\r') = true := by
  by_cases h1 : c = '\n'
  · subst h1; simp [isWsJS] at h
  · by_cases h2 : c = '\r'
    · subst h2; simp [isWsJS] at h
    · simp only [Bool.and_eq_true, bne_iff_ne]
      exact ⟨h1, h2⟩

theorem okLine_of_no_ws (s : String) (h : s.data.all (fun c => !isWsJS c) = true) :
    okLine s = true := by
  unfold okLine
  simp only [List.all_eq_true] at *
  intro c hc
  exact no_ws_char c (h c hc)

theorem okLine_append (s t : String) :
    okLine (s ++ t) = (okLine s && okLine t) := by
  simp [okLine, String.data_append, List.all_append]

theorem okLine_no_nl (s : String) (h : okLine s = true) :
    s.data.all (fun c => c != '\n') = true := by
  simp only [okLine, List.all_eq_true, Bool.and_eq_true] at *
  intro c hc
  exact (h c hc).1

theorem okLine_no_cr (s : String) (h : okLine s = true) :
    s.data.all (fun c => c != '\r') = true := by
  simp only [okLine, List.all_eq_true, Bool.and_eq_true] at *
  intro c hc
  exact (h c hc).2

theorem replCRLF_eq_self (l : Chars) (h : l.all (fun c => c != '\r') = true) :
    replCRLF l = l := by
  induction l using replCRLF.induct with
  | case1 rest ih =>
    simp only [List.all_cons, Bool.and_eq_true] at h
    simp at h
  | case2 c rest hnot ih =>
    simp only [List.all_cons, Bool.and_eq_true] at h
    rw [replCRLF.eq_def]
    split
    · rename_i heq
      injection heq with h1 _
      subst h1
      simp at h
    · rename_i c' rest' heq
      injection heq with h1 h2
      subst h1; subst h2
      rw [ih h.2]
    · rename_i heq
      exact absurd heq (List.cons_ne_nil c rest)
  | case3 => rfl

theorem joinNL_no_cr (L : List String) (h : L.all okLine = true) :
    (joinNL L).data.all (fun c => c != '\r') = true := by
  induction L with
  | nil => rfl
  | cons s rest ih =>
    simp only [List.all_cons, Bool.and_eq_true] at h
    cases rest with
    | nil => exact okLine_no_cr s h.1
    | cons t rest' =>
      show ((s ++ "\n" ++ joinNL (t :: rest')).data).all (fun c => c != '\r') = true
      simp only [String.data_append, List.all_append, Bool.and_eq_true]
      exact ⟨⟨okLine_no_cr s h.1, by decide⟩, ih h.2⟩

theorem splitCh_append_sep (sep : Char) (u rest : Chars)
    (h : u.all (fun c => c != sep) = true) :
    splitCh sep (u ++ sep :: rest) = u :: splitCh sep rest := by
  induction u with
  | nil => simp [splitCh]
  | cons c u' ih =>
    simp only [List.all_cons, Bool.and_eq_true] at h
    rw [List.cons_append]
    show (if c = sep then [] :: splitCh sep (u' ++ sep :: rest)
      else match splitCh sep (u' ++ sep :: rest) with
        | [] => [[c]]
        | l :: ls => (c :: l) :: ls) = (c :: u') :: splitCh sep rest
    rw [if_neg (by simpa [bne_iff_ne] using h.1), ih h.2]

theorem splitCh_joinNL : ∀ (L : List String), L ≠ [] → L.all okLine = true →
    splitCh '\n' (joinNL L).data = L.map String.data := by
  intro L
  induction L with
  | nil => intro hne _; exact absurd rfl hne
  | cons s rest ih =>
    intro _ h
    simp only [List.all_cons, Bool.and_eq_true] at h
    cases rest with
    | nil =>
      show splitCh '\n' s.data = [s.data]
      exact splitCh_single '\n' s.data (okLine_no_nl s h.1)
    | cons t rest' =>
      have hd : (joinNL (s :: t :: rest')).data
          = s.data ++ '\n' :: (joinNL (t :: rest')).data := by
        show (s ++ "\n" ++ joinNL (t :: rest')).data = _
        simp [String.data_append]
      rw [hd, splitCh_append_sep '\n' s.data _ (okLine_no_nl s h.1),
        ih (by simp) h.2]
      rfl

theorem splitLines_joinNL (L : List String) (hne : L ≠ [])
    (h : L.all okLine = true) : splitLines (joinNL L) = L := by
  unfold splitLines
  rw [replCRLF_eq_self _ (joinNL_no_cr L h), splitCh_joinNL L hne h,
    List.map_map]
  have hid : (String.mk ∘ String.data) = id := rfl
  rw [hid, List.map_id]

theorem startsWithL_append_right (n : Chars) :
    ∀ (u v : Chars), startsWithL n u = true → startsWithL n (u ++ v) = true := by
  induction n with
  | nil => intro u v _; rfl
  | cons c n' ih =>
    intro u v h
    cases u with
    | nil => cases h
    | cons a u' =>
      simp only [startsWithL, Bool.and_eq_true] at h ⊢
      exact ⟨h.1, ih u' v h.2⟩

theorem occursSub_append_left (n : Chars) :
    ∀ (u v : Chars), occursSub n u = true → occursSub n (u ++ v) = true := by
  intro u
  induction u with
  | nil =>
    intro v h
    cases n with
    | nil => cases v with
      | nil => exact h
      | cons c v' => simp [occursSub, startsWithL]
    | cons c n' => cases h
  | cons a u' ih =>
    intro v h
    simp only [occursSub, Bool.or_eq_true] at h
    rw [List.cons_append]
    simp only [occursSub, Bool.or_eq_true]
    cases h with
    | inl h =>
      left
      have := startsWithL_append_right n (a :: u') v h
      simpa using this
    | inr h => exact Or.inr (ih v h)

theorem occursSub_append_right (n : Chars) (u : Chars) :
    ∀ (v : Chars), occursSub n v = true → occursSub n (u ++ v) = true := by
  induction u with
  | nil => intro v h; exact h
  | cons a u' ih =>
    intro v h
    rw [List.cons_append]
    simp only [occursSub, Bool.or_eq_true]
    exact Or.inr (ih v h)

theorem occursSub_joinNL (n : Chars) :
    ∀ (L : List String) (s : String), s ∈ L → occursSub n s.data = true →
    occursSub n (joinNL L).data = true := by
  intro L
  induction L with
  | nil => intro s hmem _; cases hmem
  | cons t rest ih =>
    intro s hmem h
    cases hmem with
    | head =>
      cases rest with
      | nil => exact h
      | cons t' rest' =>
        show occursSub n (t ++ "\n" ++ joinNL (t' :: rest')).data = true
        rw [show (t ++ "\n" ++ joinNL (t' :: rest')).data
            = (t ++ "\n").data ++ (joinNL (t' :: rest')).data from rfl]
        exact occursSub_append_left n (t ++ "\n").data _
          (by rw [show (t ++ "\n").data = t.data ++ "\n".data from rfl]
              exact occursSub_append_left n t.data _ h)
    | tail _ hmem =>
      have hrest : rest ≠ [] := by
        intro hr; rw [hr] at hmem; cases hmem
      cases rest with
      | nil => exact absurd rfl hrest
      | cons t' rest' =>
        show occursSub n (t ++ "\n" ++ joinNL (t' :: rest')).data = true
        rw [show (t ++ "\n" ++ joinNL (t' :: rest')).data
            = (t ++ "\n").data ++ (joinNL (t' :: rest')).data from rfl]
        exact occursSub_append_right n (t ++ "\n").data _ (ih s hmem h)

theorem dropWhile_all_neg (p : Char → Bool) (l : Chars)
    (h : l.all (fun c => !p c) = true) : l.dropWhile p = l := by
  cases l with
  | nil => rfl
  | cons c rest =>
    simp only [List.all_cons, Bool.and_eq_true, Bool.not_eq_true'] at h
    rw [List.dropWhile_cons, if_neg (by simp [h.1])]

theorem trimL_eq_self (l : Chars) (h : l.all (fun c => !isWsJS c) = true) :
    trimL l = l := by
  unfold trimL
  rw [dropWhile_all_neg _ _ h,
    dropWhile_all_neg _ _ (by rw [List.all_reverse]; exact h),
    List.reverse_reverse]

theorem normalizeGitPath_a (X : String)
    (hw : X.data.all (fun c => !isWsJS c) = true) :
    normalizeGitPath ("a/" ++ X) = X := by
  have hall : ("a/" ++ X).data.all (fun c => !isWsJS c) = true := by
    rw [show ("a/" ++ X).data = 'a' :: '/' :: X.data from rfl]
    simp only [List.all_cons, Bool.and_eq_true]
    exact ⟨by decide, by decide, hw⟩
  have ht : trimS ("a/" ++ X) = "a/" ++ X := by
    unfold trimS
    rw [trimL_eq_self _ hall]
  have hnd : ¬ (("a/" ++ X : String) = "/dev/null") := by
    intro hc
    have h2 := congrArg String.data hc
    rw [show ("a/" ++ X).data = 'a' :: '/' :: X.data from rfl,
      show ("/dev/null" : String).data
        = '/' :: 'd' :: 'e' :: 'v' :: '/' :: 'n' :: 'u' :: 'l' :: 'l' :: [] from rfl]
      at h2
    injection h2 with h3 _
    exact absurd h3 (by decide)
  unfold normalizeGitPath
  simp only [ht]
  rw [if_neg hnd, if_pos (show startsWithS ("a/" ++ X) "a/" = true from rfl)]
  exact rfl

theorem normalizeGitPath_b (X : String)
    (hw : X.data.all (fun c => !isWsJS c) = true) :
    normalizeGitPath ("b/" ++ X) = X := by
  have hall : ("b/" ++ X).data.all (fun c => !isWsJS c) = true := by
    rw [show ("b/" ++ X).data = 'b' :: '/' :: X.data from rfl]
    simp only [List.all_cons, Bool.and_eq_true]
    exact ⟨by decide, by decide, hw⟩
  have ht : trimS ("b/" ++ X) = "b/" ++ X := by
    unfold trimS
    rw [trimL_eq_self _ hall]
  have hnd : ¬ (("b/" ++ X : String) = "/dev/null") := by
    intro hc
    have h2 := congrArg String.data hc
    rw [show ("b/" ++ X).data = 'b' :: '/' :: X.data from rfl,
      show ("/dev/null" : String).data
        = '/' :: 'd' :: 'e' :: 'v' :: '/' :: 'n' :: 'u' :: 'l' :: 'l' :: [] from rfl]
      at h2
    injection h2 with h3 _
    exact absurd h3 (by decide)
  unfold normalizeGitPath
  simp only [ht]
  rw [if_neg hnd,
    if_neg (show ¬ (startsWithS ("b/" ++ X) "a/" = true) by exact fun hc => by cases hc),
    if_pos (show startsWithS ("b/" ++ X) "b/" = true from rfl)]
  exact rfl

theorem emitBlock_block1 (X : String)
    (hw : X.data.all (fun c => !isWsJS c) = true)
    (hne : X.data ≠ []) (hdev : X ≠ "/dev/null") :
    emitBlock (c8block1 X) =
      [{ op := some "patch", path := some X,
         content := some (joinNL (c8block1 X)) }] := by
  have hXne : X ≠ "" := fun hc => hne (congrArg String.data hc)
  have hinc : strIncludes (joinNL (c8block1 X)) "@@ " = true :=
    occursSub_joinNL _ (c8block1 X) "@@ -1 +1 @@" (by simp [c8block1]) (by decide)
  have hdel : (some X == some "/dev/null") = false := by
    rw [show (some X == some "/dev/null") = (X == "/dev/null") from rfl]
    exact beq_eq_false_iff_ne.mpr hdev
  unfold emitBlock
  rw [show scanBlockHeaders (c8block1 X) =
      (none, none, some (normalizeGitPath ("a/" ++ X)),
        some (normalizeGitPath ("b/" ++ X))) from rfl]
  rw [normalizeGitPath_a X hw, normalizeGitPath_b X hw]
  unfold emitBlock.emitBlockNoRename
  simp only [if_pos (show X ≠ "" ∧ X ≠ "/dev/null" from ⟨hXne, hdev⟩), hdel,
    hinc]
  rfl

theorem emitBlock_block2 (Y : String)
    (hw : Y.data.all (fun c => !isWsJS c) = true)
    (hne : Y.data ≠ []) (hdev : Y ≠ "/dev/null") :
    emitBlock (c8block2 Y) =
      [{ op := some "delete", path := some Y }] := by
  have hYne : Y ≠ "" := fun hc => hne (congrArg String.data hc)
  unfold emitBlock
  rw [show scanBlockHeaders (c8block2 Y) =
      (none, none, some (normalizeGitPath ("a/" ++ Y)),
        some ("/dev/null" : String)) from rfl]
  rw [normalizeGitPath_a Y hw]
  unfold emitBlock.emitBlockNoRename
  simp only [if_pos (show Y ≠ "" ∧ Y ≠ "/dev/null" from ⟨hYne, hdev⟩)]
  rfl

/-- C8 counterexample: a diff blob with exactly two `diff --git ` blocks,
one with a hunk and one marked `deleted file mode`, but whose blocks carry
no `---`/`+++` header lines, splits into NO operations at all: each block's
path stays null (paths are only read from `rename from`/`rename to`/
`--- `/`+++ ` lines) and a pathless block is silently dropped. -/
theorem c8_counterexample :
    (blockLoop (splitLines c8badBlob) []).length = 2 ∧
    strIncludes c8badBlob "@@ " = true ∧
    strIncludes c8badBlob "deleted file mode" = true ∧
    splitMultiFileGitDiffToEdits c8badBlob = [] := by
  refine ⟨rfl, rfl, rfl, rfl⟩

/-- C8 amended: for the canonical two-block git diff blob over paths `X`
(hunk-bearing block with `--- a/X`/`+++ b/X` headers) and `Y` (block marked
`deleted file mode` with `--- a/Y`/`+++ /dev/null` headers), where `X` and
`Y` are nonempty, contain no whitespace, and differ from `/dev/null`,
`splitMultiFileGitDiffToEdits` produces exactly two operations — one patch
carrying the first block's text and one delete — and each operation's path
has the `a/`/`b/` prefix stripped. -/
theorem c8_two_block_split (X Y : String)
    (hX : X.data ≠ [] ∧ X.data.all (fun c => !isWsJS c) = true ∧
      X ≠ "/dev/null")
    (hY : Y.data ≠ [] ∧ Y.data.all (fun c => !isWsJS c) = true ∧
      Y ≠ "/dev/null") :
    splitMultiFileGitDiffToEdits (joinNL (c8lines X Y)) =
      [{ op := some "patch", path := some X,
         content := some (joinNL (c8block1 X)) },
       { op := some "delete", path := some Y }] := by
  obtain ⟨hXne, hXw, hXdev⟩ := hX
  obtain ⟨hYne, hYw, hYdev⟩ := hY
  have hX1 : okLine X = true := okLine_of_no_ws X hXw
  have hY1 : okLine Y = true := okLine_of_no_ws Y hYw
  have hok : (c8lines X Y).all okLine = true := by
    simp only [c8lines, c8block1, c8block2, List.all_append, List.all_cons,
      List.all_nil, okLine_append, hX1, hY1, Bool.and_true, Bool.true_and,
      and_true, Bool.and_eq_true]
    decide
  unfold splitMultiFileGitDiffToEdits
  rw [splitLines_joinNL _ (by simp [c8lines, c8block1]) hok]
  rw [show blockLoop (c8lines X Y) [] = [c8block1 X, c8block2 Y] from rfl]
  rw [List.map_cons, List.map_cons, List.map_nil]
  rw [emitBlock_block1 X hXw hXne hXdev, emitBlock_block2 Y hYw hYne hYdev]
  rfl

/-- C8 witness: the amended theorem applied at `X = "src/app.ts"`,
`Y = "old.ts"`. -/
theorem c8_witness :
    splitMultiFileGitDiffToEdits (joinNL (c8lines "src/app.ts" "old.ts")) =
      [{ op := some "patch", path := some "src/app.ts",
         content := some (joinNL (c8block1 "src/app.ts")) },
       { op := some "delete", path := some "old.ts" }] :=
  c8_two_block_split "src/app.ts" "old.ts"
    ⟨by decide, by decide, by decide⟩ ⟨by decide, by decide, by decide⟩

/-! ## C9: stats consistency -/

/-- C9: `stats` is always the recomputation over the current `files` via the
Line Differ: `buildChangeSet` computes it that way, and every per-file
accept/reject that leaves a live ChangeSet either leaves `files` (and
`stats`) untouched or recomputes `stats` from the filtered `files`; a
transition that would leave `files` empty retires the ChangeSet (`none`)
instead. -/
theorem c9_stats_consistency (edits : List AiEditOp) (S : Ws) (cs : ChangeSet)
    (path : String) (ws : Ws) :
    (∀ cs0, buildChangeSet edits S = .ok cs0 →
       cs0.stats = computeStats cs0.files) ∧
    (cs.stats = computeStats cs.files → cs.files ≠ [] →
      (∀ cs', (rejectFileChange cs path ws).1 = some cs' →
         cs'.stats = computeStats cs'.files ∧ cs'.files ≠ []) ∧
      (∀ cs', (acceptFileChange cs path ws).1 = some cs' →
         cs'.stats = computeStats cs'.files ∧ cs'.files ≠ [])) := by
  constructor
  · intro cs0 h
    unfold buildChangeSet at h
    cases hb : buildFilesAux S edits [] with
    | error e => rw [hb] at h; cases h
    | ok files =>
      rw [hb] at h
      injection h with h
      rw [← h]
  · intro hinv hne
    have hshrink : ∀ cs', shrinkFiles cs path = some cs' →
        cs'.stats = computeStats cs'.files ∧ cs'.files ≠ [] := by
      intro cs' h
      unfold shrinkFiles at h
      split at h
      · cases h
      · rename_i hne2
        injection h with h
        subst h
        refine ⟨rfl, fun hfe => hne2 ?_⟩
        simp only at hfe
        rw [hfe]
        rfl
    constructor
    · intro cs' h
      unfold rejectFileChange at h
      split at h
      · injection h with h
        exact h ▸ ⟨hinv, hne⟩
      · split at h
        · exact hshrink cs' h
        · split at h
          · split at h
            · injection h with h
              exact h ▸ ⟨hinv, hne⟩
            · exact hshrink cs' h
          · exact hshrink cs' h
    · intro cs' h
      unfold acceptFileChange at h
      split at h
      · split at h
        · exact hshrink cs' h
        · split at h
          · injection h with h
            subst h
            exact ⟨hinv, hne⟩
          · injection h with h
            subst h
            exact ⟨hinv, hne⟩
      · exact hshrink cs' h

/-- C9 witness: the theorem applied at a concrete per-file reject that
removes one of two files from an applied ChangeSet. -/
theorem c9_witness :
    ({ edits := [], files := [⟨ChangeKind.write, "q", none, some "n"⟩],
       stats := computeStats [⟨ChangeKind.write, "q", none, some "n"⟩],
       applied := true } : ChangeSet).stats =
      computeStats
        ({ edits := [], files := [⟨ChangeKind.write, "q", none, some "n"⟩],
           stats := computeStats [⟨ChangeKind.write, "q", none, some "n"⟩],
           applied := true } : ChangeSet).files ∧
    ({ edits := [], files := [⟨ChangeKind.write, "q", none, some "n"⟩],
       stats := computeStats [⟨ChangeKind.write, "q", none, some "n"⟩],
       applied := true } : ChangeSet).files ≠ [] :=
  ((c9_stats_consistency [] []
      { edits := [],
        files := [⟨ChangeKind.write, "p", some "old", some "new"⟩,
                  ⟨ChangeKind.write, "q", none, some "n"⟩],
        stats := computeStats
          [⟨ChangeKind.write, "p", some "old", some "new"⟩,
           ⟨ChangeKind.write, "q", none, some "n"⟩],
        applied := true } "p" [("p", "new"), ("q", "n")]).2
    rfl (by decide)).1
    { edits := [], files := [⟨ChangeKind.write, "q", none, some "n"⟩],
      stats := computeStats [⟨ChangeKind.write, "q", none, some "n"⟩],
      applied := true }
    (by rfl)

/-! ## C10: the overlap guard is unreachable -/

/-- C10: `applyUnifiedDiffToText` never returns the
"Patch hunk overlaps previous hunk" error, for any base text and any diff
text: `findSequenceStart` only returns indices at or after its `minIndex`
argument (the cursor just past the previous hunk), so the `foundIdx < ai`
guard can never fire. -/
theorem c10_no_overlap_error (before patchText : String) :
    applyUnifiedDiffToText before patchText ≠
      .error "Patch hunk overlaps previous hunk" := by
  intro h
  simp only [applyUnifiedDiffToText] at h
  split at h
  · simp only [Except.error.injEq] at h
    exact absurd h (by decide)
  · split at h
    · rename_i e he
      simp only [Except.error.injEq] at h
      exact applyHunks_ne_overlap (splitLines before) (parseUnifiedDiff patchText)
        [] 0 (h ▸ he)
    · cases h

end Pompora
